import Mathlib

/-!
# bdns: the AVL index tree and the node that applies blocks to it

A shallow embedding of `internal/index/avl.go` (the index tree and its digest) and of
`internal/network/node_helper.go` (block application and the peer handlers) of the
name-registry node, and a verification development over it.

Modelling conventions.

* A Go `*AVLNode` is either `nil` or the address of a node owned by exactly one parent
  (the tree is built only through `Add`, `Update` and `Remove`, none of which shares a
  node), so a pointer is embedded as a value of the inductive type `AVLNode`, and a
  method that mutates its receiver and returns the new subtree root is embedded as a
  function returning the new subtree.
* Keys are Go strings, compared by `<` and `>` (byte-wise lexicographic order, a strict
  total order).  The code uses nothing else of keys, so the key type is a parameter `K`
  carrying a linear order.  Values are `*blockchain.Transaction`; the tree only stores
  and returns them, so the value type is a parameter `V`.
* The `height` field is a Go `int`; it is embedded as `Int`.  `recalculateHeight` goes
  through `float64` and `math.Max`; heights are far below `2 ^ 53`, where the conversion
  is exact, so it is embedded as integer `max`.
* Dereferencing a nil pointer panics.  Every function that can do so returns an `Option`,
  `none` standing for the panic.
* `sha256.Sum256` is a parameter `H` on byte lists; a byte is a natural number.
* The struct `Node`, the package `blockchain` (transactions, blocks, validators, the pool
  helper) and the peer transport are not among the sources.  Their types and helpers are
  modelled from the specification, each under a comment that says so; the validators and
  the slot leader are parameters.
* The operations of the node are embedded with the events they produce (mutex locked,
  mutex unlocked, message sent), one operation at a time.
-/

namespace Bdns

/-- The Go struct `AVLNode` behind a pointer: `nil` is the nil pointer. -/
inductive AVLNode (K V : Type) where
  | nil : AVLNode K V
  | node (key : K) (value : V) (height : Int) (left right : AVLNode K V) : AVLNode K V
  deriving DecidableEq, Repr

namespace AVLNode

variable {K V : Type}

/-- The method `getHeight`: 0 for nil, the stored height otherwise. -/
def getHeight : AVLNode K V → Int
  | nil => 0
  | node _ _ h _ _ => h

/-- The method `recalculateHeight`: stores `1 + max` of the children's stored heights.
The receiver is dereferenced, so a nil receiver panics. -/
def recalculateHeight : AVLNode K V → Option (AVLNode K V)
  | nil => none
  | node k v _ l r => some (node k v (1 + max (getHeight l) (getHeight r)) l r)

/-- The method `rotateLeft`: `newRoot := n.right; n.right = newRoot.left;
newRoot.left = n`, then the two heights are recalculated, `n` first. -/
def rotateLeft : AVLNode K V → Option (AVLNode K V)
  | nil => none
  | node _ _ _ _ nil => none
  | node k v h l (node rk rv rh rl rr) =>
    (recalculateHeight (node k v h l rl)).bind fun n =>
      recalculateHeight (node rk rv rh n rr)

/-- The method `rotateRight`: `newRoot := n.left; n.left = newRoot.right;
newRoot.right = n`, then the two heights are recalculated, `n` first. -/
def rotateRight : AVLNode K V → Option (AVLNode K V)
  | nil => none
  | node _ _ _ nil _ => none
  | node k v h (node lk lv lh ll lr) r =>
    (recalculateHeight (node k v h lr r)).bind fun n =>
      recalculateHeight (node lk lv lh ll n)

/-- The method `rebalanceTree`. -/
def rebalanceTree : AVLNode K V → Option (AVLNode K V)
  | nil => some nil
  | node k v h l r =>
    (recalculateHeight (node k v h l r)).bind fun n =>
      let balanceFactor := getHeight l - getHeight r
      if balanceFactor = -2 then
        match r with
        | nil => none
        | node rk rv rh rl rr =>
          if getHeight rl > getHeight rr then
            (rotateRight (node rk rv rh rl rr)).bind fun r1 =>
              rotateLeft (node k v (getHeight n) l r1)
          else rotateLeft n
      else if balanceFactor = 2 then
        match l with
        | nil => none
        | node lk lv lh ll lr =>
          if getHeight lr > getHeight ll then
            (rotateLeft (node lk lv lh ll lr)).bind fun l1 =>
              rotateRight (node k v (getHeight n) l1 r)
          else rotateRight n
      else some n

/-- The method `findSmallest`: the leftmost node of a non-nil subtree. -/
def findSmallest : AVLNode K V → Option (AVLNode K V)
  | nil => none
  | node k v h nil r => some (node k v h nil r)
  | node _ _ _ (node lk lv lh ll lr) _ => findSmallest (node lk lv lh ll lr)

variable [LinearOrder K]

/-- The method `add`. -/
def add (n : AVLNode K V) (key : K) (value : V) : Option (AVLNode K V) :=
  match n with
  | nil => some (node key value 1 nil nil)
  | node k v h l r =>
    if key < k then
      (add l key value).bind fun l1 => rebalanceTree (node k v h l1 r)
    else if key > k then
      (add r key value).bind fun r1 => rebalanceTree (node k v h l r1)
    else
      rebalanceTree (node k value h l r)

/-- The method `remove`. -/
def remove (n : AVLNode K V) (key : K) : Option (AVLNode K V) :=
  match n with
  | nil => some nil
  | node k v h l r =>
    if key < k then
      (remove l key).bind fun l1 => rebalanceTree (node k v h l1 r)
    else if key > k then
      (remove r key).bind fun r1 => rebalanceTree (node k v h l r1)
    else
      match l, r with
      | node lk lv lh ll lr, node rk rv rh rl rr =>
        match findSmallest (node rk rv rh rl rr) with
        | some (node mk mv _ _ _) =>
          (remove (node rk rv rh rl rr) mk).bind fun r1 =>
            rebalanceTree (node mk mv h (node lk lv lh ll lr) r1)
        | _ => none
      | node lk lv lh ll lr, nil => rebalanceTree (node lk lv lh ll lr)
      | nil, node rk rv rh rl rr => rebalanceTree (node rk rv rh rl rr)
      | nil, nil => some nil

/-- The method `search`: the node holding `key`, or nil. -/
def search (n : AVLNode K V) (key : K) : AVLNode K V :=
  match n with
  | nil => nil
  | node k v h l r =>
    if key < k then search l key
    else if key > k then search r key
    else node k v h l r

/-- The method `displayNodesInOrder`: prints the keys left-depth first; the result is
the list of the keys printed.  The receiver is dereferenced (`n.left`) with no nil
check, so a nil receiver panics; the children are visited only when they are not nil. -/
def displayNodesInOrder : AVLNode K V → Option (List K)
  | nil => none
  | node k _ _ l r =>
    (match l with
      | nil => some []
      | node lk lv lh ll lr => displayNodesInOrder (node lk lv lh ll lr)).bind fun out1 =>
    (match r with
      | nil => some []
      | node rk rv rh rl rr => displayNodesInOrder (node rk rv rh rl rr)).bind fun out2 =>
    some (out1 ++ k :: out2)

/-! ### Observations used to state the properties -/

/-- In-order traversal: the (key, value) pairs of the nodes, left subtree first. -/
def entries : AVLNode K V → List (K × V)
  | nil => []
  | node k v _ l r => entries l ++ (k, v) :: entries r

/-- In-order key sequence. -/
def keys (n : AVLNode K V) : List K := (entries n).map Prod.fst

/-- True height of a subtree: 0 for nil, one more than the higher child otherwise. -/
def trueHeight : AVLNode K V → Nat
  | nil => 0
  | node _ _ _ l r => 1 + max (trueHeight l) (trueHeight r)

/-- Every node's children differ in true height by at most one. -/
def Balanced : AVLNode K V → Prop
  | nil => True
  | node _ _ _ l r =>
    trueHeight l ≤ trueHeight r + 1 ∧ trueHeight r ≤ trueHeight l + 1 ∧ Balanced l ∧ Balanced r

/-- Every node's stored height is the true height of its subtree. -/
def HeightsExact : AVLNode K V → Prop
  | nil => True
  | node k v h l r => h = (trueHeight (node k v h l r) : Int) ∧ HeightsExact l ∧ HeightsExact r

/-- Every node's stored height is one more than the larger of the stored heights of its
children (0 for nil), and is at least 1. -/
def StoredHeights : AVLNode K V → Prop
  | nil => True
  | node _ _ h l r =>
    h = 1 + max (getHeight l) (getHeight r) ∧ 1 ≤ h ∧ StoredHeights l ∧ StoredHeights r

/-- The in-order key sequence is strictly ascending. -/
def Ordered (n : AVLNode K V) : Prop := (keys n).Pairwise (· < ·)

/-- The AVL invariant in terms of the stored heights, as the code reads them. -/
def AVL : AVLNode K V → Prop
  | nil => True
  | node _ _ h l r =>
    AVL l ∧ AVL r ∧ h = 1 + max (getHeight l) (getHeight r) ∧
      getHeight l ≤ getHeight r + 1 ∧ getHeight r ≤ getHeight l + 1

/-- The value stored in a node returned by `search`; `none` for nil (not found). -/
def value? : AVLNode K V → Option V
  | nil => none
  | node _ v _ _ _ => some v

/-- The tree with every value erased: its shape, keys and stored heights. -/
def skeleton : AVLNode K V → AVLNode K Unit
  | nil => nil
  | node k _ h l r => node k () h (skeleton l) (skeleton r)

end AVLNode

open AVLNode

/-- The Go struct `AVLTree`: a root pointer. -/
structure AVLTree (K V : Type) where
  root : AVLNode K V
  deriving DecidableEq, Repr

namespace AVLTree

variable {K V : Type} [LinearOrder K]

/-- The zero value of `AVLTree`: a nil root. -/
def empty : AVLTree K V := ⟨nil⟩

/-- The method `Add`: `t.root = t.root.add(key, value)`. -/
def Add (t : AVLTree K V) (key : K) (value : V) : Option (AVLTree K V) :=
  (t.root.add key value).map fun r => ⟨r⟩

/-- The method `Remove`: `t.root = t.root.remove(key)`. -/
def Remove (t : AVLTree K V) (key : K) : Option (AVLTree K V) :=
  (t.root.remove key).map fun r => ⟨r⟩

/-- The method `Update`: `t.root = t.root.remove(key)` and then
`t.root = t.root.add(key, newValue)`. -/
def Update (t : AVLTree K V) (key : K) (newValue : V) : Option (AVLTree K V) :=
  (t.root.remove key).bind fun r1 => (r1.add key newValue).map fun r2 => ⟨r2⟩

/-- The method `DisplayInOrder`: `t.root.displayNodesInOrder()`. -/
def DisplayInOrder (t : AVLTree K V) : Option (List K) :=
  t.root.displayNodesInOrder

/-- The method `Search`: `return t.root.search(key)`.  It has no assignment: the second
component is the tree after the call. -/
def Search (t : AVLTree K V) (key : K) : AVLNode K V × AVLTree K V :=
  (t.root.search key, t)

end AVLTree

/-- One call on the index: `Add`, `Update` or `Remove`. -/
inductive Op (K V : Type) where
  | add (key : K) (value : V) : Op K V
  | update (key : K) (value : V) : Op K V
  | remove (key : K) : Op K V
  deriving DecidableEq, Repr

namespace AVLTree

variable {K V : Type} [LinearOrder K]

/-- Performs one call. -/
def apply (t : AVLTree K V) : Op K V → Option (AVLTree K V)
  | Op.add k v => t.Add k v
  | Op.update k v => t.Update k v
  | Op.remove k => t.Remove k

/-- Performs a finite sequence of calls, first to last; `none` if one of them panics. -/
def run (t : AVLTree K V) : List (Op K V) → Option (AVLTree K V)
  | [] => some t
  | op :: ops => (t.apply op).bind fun t1 => run t1 ops

/-- A tree obtained from the empty tree by a finite sequence of calls. -/
def Reachable (t : AVLTree K V) : Prop := ∃ ops : List (Op K V), run empty ops = some t

/-- The invariant of the index: stored heights are exact and balanced, keys ascend. -/
def Inv (t : AVLTree K V) : Prop := AVL t.root ∧ Ordered t.root

/-- A concrete index, with numbers standing for the keys and the records: the tree that
`Add` builds from the empty tree for the keys 2, 1 and 3, in that order. -/
def sample : AVLTree Nat Nat :=
  ⟨node 2 20 2 (node 1 10 1 nil nil) (node 3 30 1 nil nil)⟩

end AVLTree

/-! ### The digest of the index (`ComputeIndexNodeHash`) -/

/-- Modelled from the spec: the constants `blockchain.REGISTER`, `blockchain.UPDATE` and
`blockchain.REVOKE` of the package `blockchain`, which is not among the sources; the
spec names these three transaction kinds.  `other` stands for any value of the Go type
that is none of the three. -/
inductive TxType where
  | REGISTER : TxType
  | UPDATE : TxType
  | REVOKE : TxType
  | other (code : Nat) : TxType
  deriving DecidableEq, Repr

/-- Modelled from the spec: the struct `blockchain.Transaction`, which is not among the
sources.  The sources read its fields `TID`, `Type` (here `Kind`, `Type` being reserved)
and `DomainName`; `Data` stands for what else a record holds (the spec names a resolution
payload and a timestamp). -/
structure Transaction (K : Type) where
  TID : Int
  Kind : TxType
  DomainName : K
  Data : List Nat
  deriving DecidableEq, Repr

/-- Puts the decimal digits of `m`, as ASCII bytes and most significant first, in front
of `acc`; `fuel` bounds the number of digits. -/
def decimalBytesAux : Nat → Nat → List Nat → List Nat
  | 0, _, acc => acc
  | fuel + 1, m, acc =>
    if m < 10 then (m + 48) :: acc
    else decimalBytesAux fuel (m / 10) ((m % 10 + 48) :: acc)

/-- The decimal digits of a natural number as ASCII bytes, most significant first; `0`
is the single digit `0` (48). -/
def decimalBytes (m : Nat) : List Nat := decimalBytesAux (m + 1) m []

/-- The function `strconv.Itoa` of the Go standard library: the decimal text of an
integer, as bytes, with a leading `-` (45) when it is negative. -/
def Itoa (n : Int) : List Nat :=
  if n < 0 then 45 :: decimalBytes n.natAbs else decimalBytes n.natAbs

/-- The function `ComputeIndexNodeHash`.  A `*blockchain.Transaction` is `none` when nil:
reading `node.value.TID` then panics.  `H` is `sha256.Sum256`, `bytes` gives the bytes of
a key; a nil byte slice is the empty list.  The bytes hashed are the key, then the
decimal `TID`, then the left digest, then the right digest. -/
def ComputeIndexNodeHash {K : Type} (H : List Nat → List Nat) (bytes : K → List Nat) :
    AVLNode K (Option (Transaction K)) → Option (List Nat)
  | AVLNode.nil => some []
  | AVLNode.node key value _ left right =>
    (ComputeIndexNodeHash H bytes left).bind fun leftHash =>
    (ComputeIndexNodeHash H bytes right).bind fun rightHash =>
      match value with
      | none => none
      | some tx => some (H (bytes key ++ Itoa tx.TID ++ leftHash ++ rightHash))

/-- Every node of the tree holds a record (no nil `value` pointer). -/
def allPresent {K T : Type} : AVLNode K (Option T) → Bool
  | AVLNode.nil => true
  | AVLNode.node _ value _ left right => value.isSome && allPresent left && allPresent right

/-- A step from a node to one of its children. -/
inductive Dir where
  | left : Dir
  | right : Dir
  deriving DecidableEq, Repr

/-- The record of the node that a path of steps from the root leads to. -/
def recordAt {K V : Type} : AVLNode K V → List Dir → Option V
  | AVLNode.nil, _ => none
  | AVLNode.node _ v _ _ _, [] => some v
  | AVLNode.node _ _ _ l _, Dir.left :: p => recordAt l p
  | AVLNode.node _ _ _ _ r, Dir.right :: p => recordAt r p

/-- The tree with the record of the node at a path replaced, nothing else changed. -/
def replaceRecord {K V : Type} : AVLNode K V → List Dir → V → Option (AVLNode K V)
  | AVLNode.nil, _, _ => none
  | AVLNode.node k _ h l r, [], w => some (AVLNode.node k w h l r)
  | AVLNode.node k v h l r, Dir.left :: p, w =>
    (replaceRecord l p w).map fun l1 => AVLNode.node k v h l1 r
  | AVLNode.node k v h l r, Dir.right :: p, w =>
    (replaceRecord r p w).map fun r1 => AVLNode.node k v h l r1

/-! ### The node (`internal/network/node_helper.go`)

The struct `Node`, the packages `blockchain` and the peer transport are not among the
sources; what the methods of `node_helper.go` use of them is taken as follows. -/

/-- Modelled from the spec: the struct `blockchain.Block`, which is not among the
sources.  The sources read its fields `Index`, `Timestamp` and `Transactions`. -/
structure Block (K : Type) where
  Index : Int
  Timestamp : Int
  Transactions : List (Transaction K)
  deriving DecidableEq, Repr

/-- Modelled from the spec: the configuration `n.Config`, of which the sources read
`InitialTimestamp`, `SlotInterval` and `SlotsPerEpoch`. -/
structure NodeConfig where
  InitialTimestamp : Int
  SlotInterval : Int
  SlotsPerEpoch : Int
  deriving DecidableEq, Repr

/-- Modelled from the spec: the struct `Node`, declared outside the sources, as far as
`node_helper.go` reads it: the configuration, the registry keys, the index, the pool of
pending transactions (a Go map from `TID` to transaction, here a list of entries) and the
chain (the block log, oldest block first). -/
structure Node (K : Type) where
  Config : NodeConfig
  RegistryKeys : List (List Nat)
  IndexManager : AVLTree K (Option (Transaction K))
  TransactionPool : List (Int × Transaction K)
  Blockchain : List (Block K)
  deriving DecidableEq, Repr

/-- The consensus collaborators, which are not among the sources and are taken as
parameters: `n.GetSlotLeader(epoch)`, `blockchain.ValidateGenesisBlock(block,
registryKeys, slotLeader)` and `blockchain.ValidateBlock(block, latest, slotLeader)`,
where `latest` is `none` for a nil pointer.  The spec takes them as pure. -/
structure Consensus (K : Type) where
  GetSlotLeader : Node K → Int → List Nat
  ValidateGenesisBlock : Block K → List (List Nat) → List Nat → Bool
  ValidateBlock : Block K → Option (Block K) → List Nat → Bool

/-- Modelled from the spec: `Blockchain.GetLatestBlock()`, the tip of the chain, nil
(`none`) when the chain holds no block. -/
def GetLatestBlock {K : Type} (chain : List (Block K)) : Option (Block K) :=
  chain.getLast?

/-- Modelled from the spec: `Blockchain.GetBlocksFrom(height)`, the blocks of the chain
from the given height on, in chain order. -/
def GetBlocksFrom {K : Type} (chain : List (Block K)) (height : Int) : List (Block K) :=
  chain.filter fun b => decide (height ≤ b.Index)

/-- Modelled from the spec: `blockchain.RemoveTxsFromPool(txs, pool)`, which removes from
the pool every transaction of `txs`, by identifier. -/
def RemoveTxsFromPool {K : Type} (txs : List (Transaction K))
    (pool : List (Int × Transaction K)) : List (Int × Transaction K) :=
  pool.filter fun e => !(txs.any fun tx => decide (tx.TID = e.1))

/-- The two mutexes of a node. -/
inductive Mutex where
  | TxMutex : Mutex
  | BcMutex : Mutex
  deriving DecidableEq, Repr

/-- The messages that the handlers send: `MsgGetBlock` with a height, `MsgTransaction`
with a transaction, `MsgBlock` with a block. -/
inductive Msg (K : Type) where
  | MsgGetBlock (height : Int) : Msg K
  | MsgTransaction (tx : Transaction K) : Msg K
  | MsgBlock (b : Block K) : Msg K
  deriving DecidableEq, Repr

/-- The events of an operation of the node: a mutex locked, a mutex unlocked, a call of
`P2PNetwork.DirectMessage` to a peer. -/
inductive Event (K : Type) where
  | lock (m : Mutex) : Event K
  | unlock (m : Mutex) : Event K
  | DirectMessage (msg : Msg K) (dest : String) : Event K
  deriving DecidableEq, Repr

namespace Node

variable {K : Type}

/-- The epoch of a block, first statement of `AddBlock`: `(block.Timestamp -
n.Config.InitialTimestamp) / (n.Config.SlotInterval * n.Config.SlotsPerEpoch)`, with the
truncating division of Go; a zero divisor panics.  The value only selects the slot
leader, and the wrap-around of 64-bit integers is not modelled. -/
def epochOf (cfg : NodeConfig) (block : Block K) : Option Int :=
  if cfg.SlotInterval * cfg.SlotsPerEpoch = 0 then none
  else some ((block.Timestamp - cfg.InitialTimestamp).tdiv
    (cfg.SlotInterval * cfg.SlotsPerEpoch))

variable [LinearOrder K]

/-- The body of the loop of `AddBlock` for one transaction: the `switch` on `tx.Type`,
which has no default case.  Each iteration of a `for range` loop has its own variable
`tx` (Go 1.22 and later), so the pointer `&tx` stored in the index stays a pointer to a
copy of this very transaction. -/
def applyTx (idx : AVLTree K (Option (Transaction K))) (tx : Transaction K) :
    Option (AVLTree K (Option (Transaction K))) :=
  match tx.Kind with
  | TxType.REGISTER => idx.Add tx.DomainName (some tx)
  | TxType.UPDATE => idx.Update tx.DomainName (some tx)
  | TxType.REVOKE => idx.Remove tx.DomainName
  | TxType.other _ => some idx

/-- The loop of `AddBlock`: the transactions of the block, in block order. -/
def applyTxs (idx : AVLTree K (Option (Transaction K))) :
    List (Transaction K) → Option (AVLTree K (Option (Transaction K)))
  | [] => some idx
  | tx :: rest => (applyTx idx tx).bind fun idx1 => applyTxs idx1 rest

/-- The method `AddBlock`, with the events it produces: the node after the call, `none`
when the call panics.  A block that fails validation makes the method return before any
mutex is taken.  `TxMutex` is unlocked by a plain call after the loop, so a panic inside
the loop leaves it locked; `BcMutex` is unlocked by `defer`. -/
def AddBlockRun (c : Consensus K) (n : Node K) (block : Block K) :
    List (Event K) × Option (Node K) :=
  match epochOf n.Config block with
  | none => ([], none)
  | some epoch =>
    let slotLeader := c.GetSlotLeader n epoch
    if (block.Index == 0 && !c.ValidateGenesisBlock block n.RegistryKeys slotLeader) ||
        (block.Index != 0 &&
          !c.ValidateBlock block (GetLatestBlock n.Blockchain) slotLeader) then
      ([], some n)
    else
      match applyTxs n.IndexManager block.Transactions with
      | none => ([Event.lock Mutex.TxMutex], none)
      | some idx =>
        ([Event.lock Mutex.TxMutex, Event.unlock Mutex.TxMutex,
            Event.lock Mutex.BcMutex, Event.unlock Mutex.BcMutex],
          some { n with
            IndexManager := idx
            TransactionPool := RemoveTxsFromPool block.Transactions n.TransactionPool
            Blockchain := n.Blockchain ++ [block] })

/-- The node after `AddBlock`. -/
def AddBlock (c : Consensus K) (n : Node K) (block : Block K) : Option (Node K) :=
  (AddBlockRun c n block).2

omit [LinearOrder K]

/-- The method `AddTransaction`, with its events: `n.TransactionPool[tx.TID] = tx` under
`TxMutex`. -/
def AddTransactionRun (n : Node K) (tx : Transaction K) : List (Event K) × Option (Node K) :=
  ([Event.lock Mutex.TxMutex, Event.unlock Mutex.TxMutex],
    some { n with
      TransactionPool :=
        (tx.TID, tx) :: n.TransactionPool.filter fun e => decide (e.1 ≠ tx.TID) })

/-- The method `HandleINV`, with its events.  `GetLatestBlock().Index` dereferences the
tip, so an empty chain panics; the deferred unlock runs all the same. -/
def HandleINV (n : Node K) (sender : String) : List (Event K) × Option Unit :=
  match GetLatestBlock n.Blockchain with
  | none => ([Event.lock Mutex.BcMutex, Event.unlock Mutex.BcMutex], none)
  | some latest =>
    ([Event.lock Mutex.BcMutex, Event.DirectMessage (Msg.MsgGetBlock latest.Index) sender,
      Event.unlock Mutex.BcMutex], some ())

/-- The method `HandleGetData`, with its events: one message for each entry of the pool
(a Go map is visited in no fixed order; here in the order of the list). -/
def HandleGetData (n : Node K) (sender : String) : List (Event K) × Option Unit :=
  (Event.lock Mutex.TxMutex ::
    (n.TransactionPool.map fun e => Event.DirectMessage (Msg.MsgTransaction e.2) sender) ++
      [Event.unlock Mutex.TxMutex], some ())

/-- The method `HandleGetBlock`, with its events: one message for each block from five
below the tip on (from 0 when that is negative).  An empty chain panics at
`GetLatestBlock().Index`. -/
def HandleGetBlock (n : Node K) (sender : String) : List (Event K) × Option Unit :=
  match GetLatestBlock n.Blockchain with
  | none => ([Event.lock Mutex.BcMutex, Event.unlock Mutex.BcMutex], none)
  | some latest =>
    let start := if latest.Index - 5 < 0 then 0 else latest.Index - 5
    (Event.lock Mutex.BcMutex ::
      ((GetBlocksFrom n.Blockchain start).map fun b =>
        Event.DirectMessage (Msg.MsgBlock b) sender) ++
        [Event.unlock Mutex.BcMutex], some ())

/-- The method `HandleMerkleRequest`, with its events: the tip, when there is one. -/
def HandleMerkleRequest (n : Node K) (sender : String) : List (Event K) × Option Unit :=
  match GetLatestBlock n.Blockchain with
  | none => ([Event.lock Mutex.BcMutex, Event.unlock Mutex.BcMutex], some ())
  | some latest =>
    ([Event.lock Mutex.BcMutex, Event.DirectMessage (Msg.MsgBlock latest) sender,
      Event.unlock Mutex.BcMutex], some ())

end Node

/-- Checks the messages of a sequence of events against the mutexes held when they are
sent: `held` lists the mutexes held so far, and `ok` says whether a `DirectMessage` may
occur with a given list of held mutexes. -/
def checkSends {K : Type} (ok : List Mutex → Bool) : List Mutex → List (Event K) → Bool
  | _, [] => true
  | held, Event.lock m :: rest => checkSends ok (m :: held) rest
  | held, Event.unlock m :: rest => checkSends ok (held.erase m) rest
  | held, Event.DirectMessage _ _ :: rest => ok held && checkSends ok held rest

/-- No message is sent while a mutex is held. -/
def sendsAfterRelease {K : Type} (events : List (Event K)) : Bool :=
  checkSends (fun held => held.isEmpty) [] events

/-- Every message is sent while the mutex `m`, and no other, is held. -/
def sendsUnder {K : Type} (m : Mutex) (events : List (Event K)) : Bool :=
  checkSends (fun held => decide (held = [m])) [] events

/-- Whether an event is a call of `DirectMessage`. -/
def Event.isSend {K : Type} : Event K → Bool
  | Event.DirectMessage _ _ => true
  | _ => false

/-- A consensus that accepts every block; the slot leader is the empty identity. -/
def acceptAll {K : Type} : Consensus K :=
  ⟨fun _ _ => [], fun _ _ _ => true, fun _ _ _ => true⟩

/-- A consensus that rejects every block. -/
def rejectAll {K : Type} : Consensus K :=
  ⟨fun _ _ => [], fun _ _ _ => false, fun _ _ _ => false⟩

/-- A node at startup: empty index, empty pool, empty chain; slots of one time unit, one
slot to the epoch. -/
def startNode {K : Type} : Node K :=
  ⟨⟨0, 1, 1⟩, [], AVLTree.empty, [], []⟩

/-- A concrete block, with numbers standing for the domain names: a `REGISTER` and an
`UPDATE` for the domain 5 and a `REGISTER` for the domain 6 between them. -/
def sampleBlock : Block Nat :=
  ⟨0, 0, [⟨1, TxType.REGISTER, 5, []⟩, ⟨2, TxType.REGISTER, 6, []⟩,
    ⟨3, TxType.UPDATE, 5, [9]⟩]⟩

/-- A concrete node: the node at startup with two pending transactions in its pool, the
first of which is in the sample block. -/
def sampleNode : Node Nat :=
  ⟨⟨0, 1, 1⟩, [], AVLTree.empty,
    [(1, ⟨1, TxType.REGISTER, 5, []⟩), (7, ⟨7, TxType.REGISTER, 8, []⟩)], []⟩

end Bdns

/-! ## Lemmas on heights and rebalancing -/

namespace Bdns

namespace AVLNode

variable {K V : Type}

@[simp] theorem getHeight_nil : getHeight (nil : AVLNode K V) = 0 := rfl

@[simp] theorem getHeight_node (k : K) (v : V) (h : Int) (l r : AVLNode K V) :
    getHeight (node k v h l r) = h := rfl

theorem getHeight_nonneg {n : AVLNode K V} (hn : AVL n) : 0 ≤ getHeight n := by
  induction n with
  | nil => simp
  | node k v h l r ihl ihr =>
    obtain ⟨hl, hr, hh, _, _⟩ := hn
    have := ihl hl
    have := ihr hr
    simp only [getHeight_nil, getHeight_node]
    omega

theorem getHeight_eq_trueHeight {n : AVLNode K V} (hn : AVL n) :
    getHeight n = (trueHeight n : Int) := by
  induction n with
  | nil => simp [trueHeight]
  | node k v h l r ihl ihr =>
    obtain ⟨hl, hr, hh, _, _⟩ := hn
    have := ihl hl
    have := ihr hr
    simp only [getHeight_node, trueHeight]
    omega

theorem AVL.balanced {n : AVLNode K V} (hn : AVL n) : Balanced n := by
  induction n with
  | nil => trivial
  | node k v h l r ihl ihr =>
    obtain ⟨hl, hr, hh, h1, h2⟩ := hn
    have := getHeight_eq_trueHeight hl
    have := getHeight_eq_trueHeight hr
    exact ⟨by omega, by omega, ihl hl, ihr hr⟩

theorem AVL.heightsExact {n : AVLNode K V} (hn : AVL n) : HeightsExact n := by
  induction n with
  | nil => trivial
  | node k v h l r ihl ihr =>
    have hroot := getHeight_eq_trueHeight hn
    obtain ⟨hl, hr, hh, h1, h2⟩ := hn
    exact ⟨hroot, ihl hl, ihr hr⟩

/-- A successful `rebalanceTree` keeps the in-order sequence of (key, value) pairs. -/
theorem rebalanceTree_entries {n n1 : AVLNode K V} (h : rebalanceTree n = some n1) :
    entries n1 = entries n := by
  cases n with
  | nil => simp [rebalanceTree] at h; subst h; rfl
  | node k v h0 l r =>
    simp only [rebalanceTree, recalculateHeight, Option.some_bind] at h
    split at h
    · cases r with
      | nil => simp at h
      | node rk rv rh rl rr =>
        simp only at h
        split at h
        · cases rl with
          | nil => simp [rotateRight] at h
          | node rlk rlv rlh rll rlr =>
            simp [rotateRight, rotateLeft, recalculateHeight] at h
            subst h
            simp [entries]
        · simp [rotateLeft, recalculateHeight] at h
          subst h
          simp [entries]
    · split at h
      · cases l with
        | nil => simp at h
        | node lk lv lh ll lr =>
          simp only at h
          split at h
          · cases lr with
            | nil => simp [rotateLeft] at h
            | node lrk lrv lrh lrl lrr =>
              simp [rotateRight, rotateLeft, recalculateHeight] at h
              subst h
              simp [entries]
          · simp [rotateRight, recalculateHeight] at h
            subst h
            simp [entries]
      · simp at h
        subst h
        simp [entries]

/-- On a node whose children are AVL trees with stored heights at most two apart,
`rebalanceTree` returns an AVL tree, whose height is pinned down by the children's. -/
theorem rebalanceTree_spec (k : K) (v : V) (h0 : Int) {l r : AVLNode K V}
    (hl : AVL l) (hr : AVL r) (h1 : getHeight l ≤ getHeight r + 2)
    (h2 : getHeight r ≤ getHeight l + 2) :
    ∃ n1, rebalanceTree (node k v h0 l r) = some n1 ∧ AVL n1 ∧
      max (getHeight l) (getHeight r) ≤ getHeight n1 ∧
      getHeight n1 ≤ 1 + max (getHeight l) (getHeight r) ∧
      (getHeight l ≤ getHeight r + 1 → getHeight r ≤ getHeight l + 1 →
        n1 = node k v (1 + max (getHeight l) (getHeight r)) l r) := by
  have hl0 := getHeight_nonneg hl
  have hr0 := getHeight_nonneg hr
  simp only [rebalanceTree, recalculateHeight, Option.some_bind]
  by_cases hb : getHeight l - getHeight r = -2
  · rw [if_pos hb]
    cases r with
    | nil => simp only [getHeight_nil, getHeight_node] at hb hr0; omega
    | node rk rv rh rl rr =>
      obtain ⟨hrl, hrr, hrh, hr1, hr2⟩ := hr
      have hrl0 := getHeight_nonneg hrl
      have hrr0 := getHeight_nonneg hrr
      simp only [getHeight_nil, getHeight_node] at hb h1 h2 ⊢
      by_cases hc : getHeight rl > getHeight rr
      · rw [if_pos hc]
        cases rl with
        | nil => simp only [getHeight_nil, getHeight_node] at hc; omega
        | node rlk rlv rlh rll rlr =>
          obtain ⟨hrll, hrlr, hrlh, hrl1, hrl2⟩ := hrl
          simp only [getHeight_nil, getHeight_node] at hc hrh hr1 hr2 hrl0
          refine ⟨_, rfl, ?_, ?_, ?_, ?_⟩
          · simp only [AVL, getHeight_nil, getHeight_node, true_and]
            refine ⟨⟨hl, hrll, ?_, ?_⟩, ⟨hrlr, hrr, ?_, ?_⟩, ?_, ?_⟩ <;> omega
          · simp only [getHeight_nil, getHeight_node]; omega
          · simp only [getHeight_nil, getHeight_node]; omega
          · intro _ _; omega
      · rw [if_neg hc]
        refine ⟨_, rfl, ?_, ?_, ?_, ?_⟩
        · simp only [AVL, getHeight_nil, getHeight_node, true_and]
          refine ⟨⟨hl, hrl, ?_, ?_⟩, hrr, ?_, ?_⟩ <;> omega
        · simp only [getHeight_nil, getHeight_node]; omega
        · simp only [getHeight_nil, getHeight_node]; omega
        · intro _ _; omega
  · rw [if_neg hb]
    by_cases hb2 : getHeight l - getHeight r = 2
    · rw [if_pos hb2]
      cases l with
      | nil => simp only [getHeight_nil, getHeight_node] at hb2 hl0; omega
      | node lk lv lh ll lr =>
        obtain ⟨hll, hlr, hlh, hl1, hl2⟩ := hl
        have hll0 := getHeight_nonneg hll
        have hlr0 := getHeight_nonneg hlr
        simp only [getHeight_nil, getHeight_node] at hb2 h1 h2 ⊢
        by_cases hc : getHeight lr > getHeight ll
        · rw [if_pos hc]
          cases lr with
          | nil => simp only [getHeight_nil, getHeight_node] at hc; omega
          | node lrk lrv lrh lrl lrr =>
            obtain ⟨hlrl, hlrr, hlrh, hlr1, hlr2⟩ := hlr
            simp only [getHeight_nil, getHeight_node] at hc hlh hl1 hl2 hlr0
            refine ⟨_, rfl, ?_, ?_, ?_, ?_⟩
            · simp only [AVL, getHeight_nil, getHeight_node, true_and]
              refine ⟨⟨hll, hlrl, ?_, ?_⟩, ⟨hlrr, hr, ?_, ?_⟩, ?_, ?_⟩ <;> omega
            · simp only [getHeight_nil, getHeight_node]; omega
            · simp only [getHeight_nil, getHeight_node]; omega
            · intro _ _; omega
        · rw [if_neg hc]
          refine ⟨_, rfl, ?_, ?_, ?_, ?_⟩
          · simp only [AVL, getHeight_nil, getHeight_node, true_and]
            refine ⟨hll, ⟨hlr, hr, ?_, ?_⟩, ?_, ?_⟩ <;> omega
          · simp only [getHeight_nil, getHeight_node]; omega
          · simp only [getHeight_nil, getHeight_node]; omega
          · intro _ _; omega
    · rw [if_neg hb2]
      refine ⟨_, rfl, ?_, ?_, ?_, ?_⟩
      · exact ⟨hl, hr, rfl, by omega, by omega⟩
      · simp only [getHeight_nil, getHeight_node]; omega
      · simp only [getHeight_nil, getHeight_node]; omega
      · intro _ _; rfl

/-- On an AVL node `rebalanceTree` changes nothing, whatever value the node holds. -/
theorem rebalanceTree_of_avl (k : K) (v w : V) (h0 : Int) {l r : AVLNode K V}
    (hn : AVL (node k v h0 l r)) :
    rebalanceTree (node k w h0 l r) = some (node k w h0 l r) := by
  obtain ⟨hl, hr, hh, h1, h2⟩ := hn
  obtain ⟨n1, e, -, -, -, hid⟩ := rebalanceTree_spec k w h0 hl hr (by omega) (by omega)
  rw [e, hid h1 h2, hh]

/-- The leftmost node of a non-nil subtree exists, has no left child and holds the first
pair of the in-order sequence. -/
theorem findSmallest_spec (k : K) (v : V) (h : Int) (l r : AVLNode K V) :
    ∃ mk mv mh mr rest, findSmallest (node k v h l r) = some (node mk mv mh nil mr) ∧
      entries (node k v h l r) = (mk, mv) :: rest := by
  induction l generalizing k v h r with
  | nil => exact ⟨k, v, h, r, entries r, rfl, rfl⟩
  | node lk lv lh ll lr ihl _ =>
    obtain ⟨mk, mv, mh, mr, rest, e1, e2⟩ := ihl lk lv lh lr
    refine ⟨mk, mv, mh, mr, rest ++ (k, v) :: entries r, ?_, ?_⟩
    · rw [findSmallest, e1]
    · rw [entries, e2]; rfl

/-! ## Lemmas on the in-order sequence -/

@[simp] theorem entries_nil : entries (nil : AVLNode K V) = [] := rfl

@[simp] theorem entries_node (k : K) (v : V) (h : Int) (l r : AVLNode K V) :
    entries (node k v h l r) = entries l ++ (k, v) :: entries r := rfl

@[simp] theorem keys_nil : keys (nil : AVLNode K V) = [] := rfl

@[simp] theorem keys_node (k : K) (v : V) (h : Int) (l r : AVLNode K V) :
    keys (node k v h l r) = keys l ++ k :: keys r := by
  simp [keys]

theorem fst_mem_keys {n : AVLNode K V} {p : K × V} (hp : p ∈ entries n) : p.1 ∈ keys n :=
  List.mem_map_of_mem Prod.fst hp

theorem entries_eq_nil {n : AVLNode K V} (h : entries n = []) : n = nil := by
  cases n with
  | nil => rfl
  | node k v h0 l r => simp at h

theorem getHeight_skeleton (n : AVLNode K V) : getHeight (skeleton n) = getHeight n := by
  cases n <;> rfl

theorem avl_skeleton (n : AVLNode K V) : AVL (skeleton n) ↔ AVL n := by
  induction n with
  | nil => exact Iff.rfl
  | node k v h l r ihl ihr =>
    simp only [skeleton, AVL, getHeight_skeleton, ihl, ihr]

/-! ## Totality and balance of `add` and `remove` -/

variable [LinearOrder K]

/-- On an AVL tree `add` returns (it dereferences no nil pointer) an AVL tree, of the
same height or one higher. -/
theorem add_avl {n : AVLNode K V} (hn : AVL n) (key : K) (value : V) :
    ∃ n1, add n key value = some n1 ∧ AVL n1 ∧
      getHeight n ≤ getHeight n1 ∧ getHeight n1 ≤ getHeight n + 1 := by
  induction n with
  | nil =>
    refine ⟨node key value 1 nil nil, rfl, ?_, by simp, by simp⟩
    simp [AVL]
  | node k v h l r ihl ihr =>
    obtain ⟨hl, hr, hh, h1, h2⟩ := hn
    simp only [add, getHeight_node]
    split
    · obtain ⟨l1, e, hl1, b1, b2⟩ := ihl hl
      obtain ⟨n1, e1, hn1, c1, c2, hid⟩ := rebalanceTree_spec k v h hl1 hr (by omega) (by omega)
      have hh1 : getHeight l1 ≤ getHeight r + 1 → getHeight r ≤ getHeight l1 + 1 →
          getHeight n1 = 1 + max (getHeight l1) (getHeight r) := fun a b => by
        rw [hid a b, getHeight_node]
      refine ⟨n1, by rw [e, Option.some_bind, e1], hn1, ?_, ?_⟩ <;> omega
    · split
      · obtain ⟨r1, e, hr1, b1, b2⟩ := ihr hr
        obtain ⟨n1, e1, hn1, c1, c2, hid⟩ :=
          rebalanceTree_spec k v h hl hr1 (by omega) (by omega)
        have hh1 : getHeight l ≤ getHeight r1 + 1 → getHeight r1 ≤ getHeight l + 1 →
            getHeight n1 = 1 + max (getHeight l) (getHeight r1) := fun a b => by
          rw [hid a b, getHeight_node]
        refine ⟨n1, by rw [e, Option.some_bind, e1], hn1, ?_, ?_⟩ <;> omega
      · have hnode : AVL (node k v h l r) := ⟨hl, hr, hh, h1, h2⟩
        refine ⟨node k value h l r, rebalanceTree_of_avl k v value h hnode,
          ⟨hl, hr, hh, h1, h2⟩, by simp, by simp⟩

/-- On an AVL tree `remove` returns (it dereferences no nil pointer) an AVL tree, of the
same height or one lower. -/
theorem remove_avl {n : AVLNode K V} (hn : AVL n) (key : K) :
    ∃ n1, remove n key = some n1 ∧ AVL n1 ∧
      getHeight n1 ≤ getHeight n ∧ getHeight n ≤ getHeight n1 + 1 := by
  induction n generalizing key with
  | nil => exact ⟨nil, rfl, trivial, by simp, by simp⟩
  | node k v h l r ihl ihr =>
    obtain ⟨hl, hr, hh, h1, h2⟩ := hn
    have hl0 := getHeight_nonneg hl
    have hr0 := getHeight_nonneg hr
    rw [remove.eq_def]
    simp only [getHeight_node]
    split
    · obtain ⟨l1, e, hl1, b1, b2⟩ := ihl hl key
      obtain ⟨n1, e1, hn1, c1, c2, hid⟩ := rebalanceTree_spec k v h hl1 hr (by omega) (by omega)
      have hh1 : getHeight l1 ≤ getHeight r + 1 → getHeight r ≤ getHeight l1 + 1 →
          getHeight n1 = 1 + max (getHeight l1) (getHeight r) := fun a b => by
        rw [hid a b, getHeight_node]
      refine ⟨n1, by rw [e, Option.some_bind, e1], hn1, ?_, ?_⟩ <;> omega
    · split
      · obtain ⟨r1, e, hr1, b1, b2⟩ := ihr hr key
        obtain ⟨n1, e1, hn1, c1, c2, hid⟩ :=
          rebalanceTree_spec k v h hl hr1 (by omega) (by omega)
        have hh1 : getHeight l ≤ getHeight r1 + 1 → getHeight r1 ≤ getHeight l + 1 →
            getHeight n1 = 1 + max (getHeight l) (getHeight r1) := fun a b => by
          rw [hid a b, getHeight_node]
        refine ⟨n1, by rw [e, Option.some_bind, e1], hn1, ?_, ?_⟩ <;> omega
      · cases l with
        | nil =>
          cases r with
          | nil => exact ⟨nil, rfl, trivial, by simp; omega, by simp at hh ⊢; omega⟩
          | node rk rv rh rl rr =>
            refine ⟨node rk rv rh rl rr, rebalanceTree_of_avl rk rv rv rh hr, hr, ?_, ?_⟩ <;>
              simp only [getHeight_nil, getHeight_node] at * <;> omega
        | node lk lv lh ll lr =>
          cases r with
          | nil =>
            refine ⟨node lk lv lh ll lr, rebalanceTree_of_avl lk lv lv lh hl, hl, ?_, ?_⟩ <;>
              simp only [getHeight_nil, getHeight_node] at * <;> omega
          | node rk rv rh rl rr =>
            obtain ⟨mk, mv, mh, mr, rest, es, -⟩ := findSmallest_spec rk rv rh rl rr
            obtain ⟨r1, e, hr1, b1, b2⟩ := ihr hr mk
            obtain ⟨n1, e1, hn1, c1, c2, hid⟩ :=
              rebalanceTree_spec mk mv h hl hr1 (by omega) (by omega)
            have hh1 : getHeight (node lk lv lh ll lr) ≤ getHeight r1 + 1 →
                getHeight r1 ≤ getHeight (node lk lv lh ll lr) + 1 →
                getHeight n1 = 1 + max (getHeight (node lk lv lh ll lr)) (getHeight r1) :=
              fun a b => by rw [hid a b, getHeight_node]
            refine ⟨n1, ?_, hn1, ?_, ?_⟩
            · simp only [es, e, Option.some_bind, e1]
            · omega
            · omega

/-! ## Lemmas on the ordering -/

theorem ordered_node_iff (k : K) (v : V) (h : Int) (l r : AVLNode K V) :
    Ordered (node k v h l r) ↔
      Ordered l ∧ Ordered r ∧ (∀ x ∈ keys l, x < k) ∧ (∀ x ∈ keys r, k < x) := by
  unfold Ordered
  rw [keys_node, List.pairwise_append, List.pairwise_cons]
  constructor
  · rintro ⟨h1, ⟨h2, h3⟩, h4⟩
    exact ⟨h1, h3, fun x hx => h4 x hx k (List.mem_cons_self _ _), h2⟩
  · rintro ⟨h1, h2, h3, h4⟩
    refine ⟨h1, ⟨h4, h2⟩, fun a ha b hb => ?_⟩
    rcases List.mem_cons.mp hb with rfl | hb
    · exact h3 a ha
    · exact lt_trans (h3 a ha) (h4 b hb)

theorem ordered_of_entries_eq {n m : AVLNode K V} (h : entries m = entries n)
    (hn : Ordered n) : Ordered m := by
  unfold Ordered keys at *
  rw [h]; exact hn

/-- On an ordered tree, a successful `add` yields the pairs with a smaller key, then the
added pair, then the pairs with a larger key. -/
theorem add_entries {n n1 : AVLNode K V} (hn : Ordered n) {key : K} {value : V}
    (h : add n key value = some n1) :
    entries n1 = (entries n).filter (fun p => decide (p.1 < key)) ++
      (key, value) :: (entries n).filter (fun p => decide (key < p.1)) := by
  induction n generalizing n1 with
  | nil =>
    simp only [add, Option.some.injEq] at h
    subst h
    simp
  | node k v h0 l r ihl ihr =>
    obtain ⟨ol, or, hlk, hrk⟩ := (ordered_node_iff k v h0 l r).mp hn
    have hlk1 : ∀ p ∈ entries l, p.1 < k := fun p hp => hlk _ (fst_mem_keys hp)
    have hrk1 : ∀ p ∈ entries r, k < p.1 := fun p hp => hrk _ (fst_mem_keys hp)
    simp only [add] at h
    split at h
    · rename_i hlt
      obtain ⟨l1, e, hreb⟩ := Option.bind_eq_some.mp h
      rw [rebalanceTree_entries hreb, entries_node, ihl ol e, entries_node,
        List.filter_append, List.filter_append]
      have e1 : List.filter (fun p => decide (p.1 < key)) ((k, v) :: entries r) = [] := by
        rw [List.filter_eq_nil_iff]
        intro p hp
        rcases List.mem_cons.mp hp with rfl | hp
        · simpa using le_of_lt hlt
        · simpa using le_of_lt (lt_trans hlt (hrk1 p hp))
      have e2 : List.filter (fun p => decide (key < p.1)) ((k, v) :: entries r) =
          (k, v) :: entries r := by
        rw [List.filter_eq_self]
        intro p hp
        rcases List.mem_cons.mp hp with rfl | hp
        · simpa using hlt
        · simpa using lt_trans hlt (hrk1 p hp)
      rw [e1, e2]
      simp
    · split at h
      · rename_i hnlt hgt
        obtain ⟨r1, e, hreb⟩ := Option.bind_eq_some.mp h
        rw [rebalanceTree_entries hreb, entries_node, ihr or e, entries_node,
          List.filter_append, List.filter_append]
        have e1 : List.filter (fun p => decide (p.1 < key)) (entries l) = entries l := by
          rw [List.filter_eq_self]
          intro p hp
          simpa using lt_trans (hlk1 p hp) hgt
        have e2 : List.filter (fun p => decide (key < p.1)) (entries l) = [] := by
          rw [List.filter_eq_nil_iff]
          intro p hp
          simpa using le_of_lt (lt_trans (hlk1 p hp) hgt)
        have e3 : List.filter (fun p => decide (p.1 < key)) ((k, v) :: entries r) =
            (k, v) :: List.filter (fun p => decide (p.1 < key)) (entries r) := by
          rw [List.filter_cons_of_pos]
          simpa using hgt
        have e4 : List.filter (fun p => decide (key < p.1)) ((k, v) :: entries r) =
            List.filter (fun p => decide (key < p.1)) (entries r) := by
          rw [List.filter_cons_of_neg]
          simpa using le_of_lt hgt
        rw [e1, e2, e3, e4]
        simp
      · rename_i hnlt hngt
        have hk : key = k := le_antisymm (not_lt.mp hngt) (not_lt.mp hnlt)
        subst hk
        rw [rebalanceTree_entries h, entries_node, entries_node,
          List.filter_append, List.filter_append]
        have e1 : List.filter (fun p => decide (p.1 < key)) (entries l) = entries l := by
          rw [List.filter_eq_self]
          intro p hp
          simpa using hlk1 p hp
        have e2 : List.filter (fun p => decide (key < p.1)) (entries l) = [] := by
          rw [List.filter_eq_nil_iff]
          intro p hp
          simpa using le_of_lt (hlk1 p hp)
        have e3 : List.filter (fun p => decide (p.1 < key)) ((key, v) :: entries r) = [] := by
          rw [List.filter_eq_nil_iff]
          intro p hp
          rcases List.mem_cons.mp hp with rfl | hp
          · simp
          · simpa using le_of_lt (hrk1 p hp)
        have e4 : List.filter (fun p => decide (key < p.1)) ((key, v) :: entries r) =
            entries r := by
          rw [List.filter_cons_of_neg (by simp), List.filter_eq_self]
          intro p hp
          simpa using hrk1 p hp
        rw [e1, e2, e3, e4]
        simp

/-- On an ordered tree, a successful `remove` yields the in-order sequence without the
pair of the removed key. -/
theorem remove_entries {n n1 : AVLNode K V} (hn : Ordered n) {key : K}
    (h : remove n key = some n1) :
    entries n1 = (entries n).filter (fun p => decide (p.1 ≠ key)) := by
  induction n generalizing n1 key with
  | nil =>
    simp only [remove, Option.some.injEq] at h
    subst h
    simp
  | node k v h0 l r ihl ihr =>
    obtain ⟨ol, or, hlk, hrk⟩ := (ordered_node_iff k v h0 l r).mp hn
    have hlk1 : ∀ p ∈ entries l, p.1 < k := fun p hp => hlk _ (fst_mem_keys hp)
    have hrk1 : ∀ p ∈ entries r, k < p.1 := fun p hp => hrk _ (fst_mem_keys hp)
    rw [remove.eq_def] at h
    simp only at h
    rw [entries_node, List.filter_append]
    split at h
    · rename_i hlt
      obtain ⟨l1, e, hreb⟩ := Option.bind_eq_some.mp h
      rw [rebalanceTree_entries hreb, entries_node, ihl ol e]
      have e2 : List.filter (fun p => decide (p.1 ≠ key)) ((k, v) :: entries r) =
          (k, v) :: entries r := by
        rw [List.filter_eq_self]
        intro p hp
        rcases List.mem_cons.mp hp with rfl | hp
        · simpa using ne_of_gt hlt
        · simpa using ne_of_gt (lt_trans hlt (hrk1 p hp))
      rw [e2]
    · split at h
      · rename_i hnlt hgt
        obtain ⟨r1, e, hreb⟩ := Option.bind_eq_some.mp h
        rw [rebalanceTree_entries hreb, entries_node, ihr or e]
        have e1 : List.filter (fun p => decide (p.1 ≠ key)) (entries l) = entries l := by
          rw [List.filter_eq_self]
          intro p hp
          simpa using ne_of_lt (lt_trans (hlk1 p hp) hgt)
        rw [e1, List.filter_cons_of_pos (by simpa using ne_of_lt hgt)]
      · rename_i hnlt hngt
        have hk : key = k := le_antisymm (not_lt.mp hngt) (not_lt.mp hnlt)
        subst hk
        have e1 : List.filter (fun p => decide (p.1 ≠ key)) (entries l) = entries l := by
          rw [List.filter_eq_self]
          intro p hp
          simpa using ne_of_lt (hlk1 p hp)
        have e2 : List.filter (fun p => decide (p.1 ≠ key)) ((key, v) :: entries r) =
            entries r := by
          rw [List.filter_cons_of_neg (by simp), List.filter_eq_self]
          intro p hp
          simpa using ne_of_gt (hrk1 p hp)
        rw [e1, e2]
        cases l with
        | nil =>
          cases r with
          | nil => simp only [Option.some.injEq] at h; subst h; simp
          | node rk rv rh rl rr =>
            simp only at h
            rw [rebalanceTree_entries h, entries_nil, List.nil_append]
        | node lk lv lh ll lr =>
          cases r with
          | nil =>
            simp only at h
            rw [rebalanceTree_entries h, entries_nil, List.append_nil]
          | node rk rv rh rl rr =>
            obtain ⟨mk, mv, mh, mr, rest, es, er⟩ := findSmallest_spec rk rv rh rl rr
            simp only [es] at h
            obtain ⟨r1, e, hreb⟩ := Option.bind_eq_some.mp h
            rw [rebalanceTree_entries hreb, entries_node, ihr or e, er,
              List.filter_cons_of_neg (by simp), List.filter_eq_self.mpr]
            intro p hp
            have hpw : (List.map Prod.fst ((mk, mv) :: rest)).Pairwise (· < ·) := by
              have := or
              unfold Ordered keys at this
              rwa [er] at this
            rw [List.map_cons, List.pairwise_cons] at hpw
            simpa using ne_of_gt (hpw.1 p.1 (List.mem_map_of_mem Prod.fst hp))

/-- On an ordered tree `search` returns the node holding the key when the key occurs in
the in-order sequence, and nil when it does not. -/
theorem search_spec {n : AVLNode K V} (hn : Ordered n) (key : K) :
    (search n key = nil ∧ key ∉ keys n) ∨
      ∃ v h l r, search n key = node key v h l r ∧ (key, v) ∈ entries n := by
  induction n with
  | nil => exact Or.inl ⟨rfl, by simp⟩
  | node k v h0 l r ihl ihr =>
    obtain ⟨ol, or, hlk, hrk⟩ := (ordered_node_iff k v h0 l r).mp hn
    simp only [search]
    split
    · rename_i hlt
      rcases ihl ol with ⟨e, hnot⟩ | ⟨w, h1, l1, r1, e, hm⟩
      · refine Or.inl ⟨e, ?_⟩
        rw [keys_node, List.mem_append, List.mem_cons]
        rintro (hx | hx | hx)
        · exact hnot hx
        · exact absurd hlt (by rw [hx]; exact lt_irrefl _)
        · exact absurd (lt_trans hlt (hrk _ hx)) (lt_irrefl _)
      · exact Or.inr ⟨w, h1, l1, r1, e, by simp [hm]⟩
    · split
      · rename_i hnlt hgt
        rcases ihr or with ⟨e, hnot⟩ | ⟨w, h1, l1, r1, e, hm⟩
        · refine Or.inl ⟨e, ?_⟩
          rw [keys_node, List.mem_append, List.mem_cons]
          rintro (hx | hx | hx)
          · exact absurd (lt_trans (hlk _ hx) hgt) (lt_irrefl _)
          · exact absurd hgt (by rw [hx]; exact lt_irrefl _)
          · exact hnot hx
        · exact Or.inr ⟨w, h1, l1, r1, e, by simp [hm]⟩
      · rename_i hnlt hngt
        have hk : key = k := le_antisymm (not_lt.mp hngt) (not_lt.mp hnlt)
        subst hk
        exact Or.inr ⟨v, h0, l, r, rfl, by simp⟩

theorem mem_entries_add {n n1 : AVLNode K V} (hn : Ordered n) {key : K} {value : V}
    (h : add n key value = some n1) (p : K × V) :
    p ∈ entries n1 ↔ p = (key, value) ∨ (p ∈ entries n ∧ p.1 ≠ key) := by
  rw [add_entries hn h, List.mem_append, List.mem_cons, List.mem_filter, List.mem_filter]
  simp only [decide_eq_true_eq]
  constructor
  · rintro (⟨h1, h2⟩ | h1 | ⟨h1, h2⟩)
    · exact Or.inr ⟨h1, ne_of_lt h2⟩
    · exact Or.inl h1
    · exact Or.inr ⟨h1, ne_of_gt h2⟩
  · rintro (h1 | ⟨h1, h2⟩)
    · exact Or.inr (Or.inl h1)
    · rcases lt_or_gt_of_ne h2 with h3 | h3
      · exact Or.inl ⟨h1, h3⟩
      · exact Or.inr (Or.inr ⟨h1, h3⟩)

theorem mem_keys_add {n n1 : AVLNode K V} (hn : Ordered n) {key : K} {value : V}
    (h : add n key value = some n1) (x : K) :
    x ∈ keys n1 ↔ x = key ∨ x ∈ keys n := by
  unfold keys
  simp only [List.mem_map, mem_entries_add hn h]
  constructor
  · rintro ⟨p, (rfl | ⟨h1, -⟩), rfl⟩
    · exact Or.inl rfl
    · exact Or.inr ⟨p, h1, rfl⟩
  · rintro (rfl | ⟨p, h1, rfl⟩)
    · exact ⟨(x, value), Or.inl rfl, rfl⟩
    · by_cases hk : p.1 = key
      · exact ⟨(key, value), Or.inl rfl, hk.symm⟩
      · exact ⟨p, Or.inr ⟨h1, hk⟩, rfl⟩

theorem ordered_add {n n1 : AVLNode K V} (hn : Ordered n) {key : K} {value : V}
    (h : add n key value = some n1) : Ordered n1 := by
  have hs : (List.map Prod.fst (entries n)).Pairwise (· < ·) := hn
  unfold Ordered keys
  rw [add_entries hn h, List.map_append, List.map_cons, List.pairwise_append,
    List.pairwise_cons]
  have hlo : ∀ a ∈ List.map Prod.fst (List.filter (fun p => decide (p.1 < key)) (entries n)),
      a < key := by
    intro a ha
    obtain ⟨p, hp, rfl⟩ := List.mem_map.mp ha
    simpa using (List.mem_filter.mp hp).2
  have hhi : ∀ a ∈ List.map Prod.fst (List.filter (fun p => decide (key < p.1)) (entries n)),
      key < a := by
    intro a ha
    obtain ⟨p, hp, rfl⟩ := List.mem_map.mp ha
    simpa using (List.mem_filter.mp hp).2
  refine ⟨hs.sublist ((List.filter_sublist _).map _), ⟨hhi, hs.sublist ((List.filter_sublist _).map _)⟩, ?_⟩
  intro a ha b hb
  rcases List.mem_cons.mp hb with rfl | hb
  · exact hlo a ha
  · exact lt_trans (hlo a ha) (hhi b hb)

theorem keys_remove {n n1 : AVLNode K V} (hn : Ordered n) {key : K}
    (h : remove n key = some n1) :
    keys n1 = (keys n).filter (fun x => decide (x ≠ key)) := by
  unfold keys
  rw [remove_entries hn h, List.filter_map]
  rfl

theorem mem_keys_remove {n n1 : AVLNode K V} (hn : Ordered n) {key : K}
    (h : remove n key = some n1) (x : K) :
    x ∈ keys n1 ↔ x ∈ keys n ∧ x ≠ key := by
  rw [keys_remove hn h, List.mem_filter]
  simp

theorem ordered_remove {n n1 : AVLNode K V} (hn : Ordered n) {key : K}
    (h : remove n key = some n1) : Ordered n1 := by
  unfold Ordered
  rw [keys_remove hn h]
  exact List.Pairwise.filter _ hn

theorem ordered_nodup {n : AVLNode K V} (hn : Ordered n) : (keys n).Nodup :=
  List.Pairwise.imp (fun h => ne_of_lt h) hn

/-- In an ordered tree a key has one value. -/
theorem entries_value_unique {n : AVLNode K V} (hn : Ordered n) {k : K} {v w : V}
    (hv : (k, v) ∈ entries n) (hw : (k, w) ∈ entries n) : v = w := by
  have hinj := List.inj_on_of_nodup_map (ordered_nodup hn) hv hw rfl
  exact (Prod.mk.inj hinj).2

/-- On an ordered tree, the value of the node that `search` returns for `key` is `v`
exactly when `(key, v)` is in the in-order sequence. -/
theorem search_value_iff {n : AVLNode K V} (hn : Ordered n) (key : K) (v : V) :
    value? (search n key) = some v ↔ (key, v) ∈ entries n := by
  rcases search_spec hn key with ⟨e, hnot⟩ | ⟨w, h1, l1, r1, e, hm⟩
  · rw [e]
    constructor
    · intro h; simp [value?] at h
    · intro h; exact absurd (fst_mem_keys h) hnot
  · rw [e]
    simp only [value?, Option.some.injEq]
    constructor
    · rintro rfl; exact hm
    · intro h; exact entries_value_unique hn hm h

/-- On an AVL tree, `remove` of a key that does not occur returns the tree as it was. -/
theorem remove_absent {n : AVLNode K V} (ha : AVL n) {key : K} (hk : key ∉ keys n) :
    remove n key = some n := by
  induction n with
  | nil => rfl
  | node k v h l r ihl ihr =>
    rw [keys_node, List.mem_append, List.mem_cons] at hk
    rw [remove.eq_def]
    simp only
    split
    · rw [ihl ha.1 (fun hx => hk (Or.inl hx)), Option.some_bind]
      exact rebalanceTree_of_avl k v v h ha
    · split
      · rw [ihr ha.2.1 (fun hx => hk (Or.inr (Or.inr hx))), Option.some_bind]
        exact rebalanceTree_of_avl k v v h ha
      · rename_i hnlt hngt
        exact absurd (Or.inr (Or.inl (le_antisymm (not_lt.mp hngt) (not_lt.mp hnlt)))) hk

theorem map_setValue_of_ne {es : List (K × V)} {key : K} (value : V)
    (h : ∀ p ∈ es, p.1 ≠ key) :
    es.map (fun p => if p.1 = key then (key, value) else p) = es :=
  (List.map_congr_left (fun p hp => if_neg (h p hp))).trans (List.map_id _)

/-- On an ordered AVL tree, `add` of a key that occurs returns the same tree but for the
value of the node holding the key: shape, keys and stored heights are kept, and so is
every other value. -/
theorem add_present {n : AVLNode K V} (ha : AVL n) (ho : Ordered n) {key : K}
    (hk : key ∈ keys n) (value : V) :
    ∃ n1, add n key value = some n1 ∧ skeleton n1 = skeleton n ∧
      entries n1 = (entries n).map (fun p => if p.1 = key then (key, value) else p) := by
  induction n with
  | nil => simp at hk
  | node k v h l r ihl ihr =>
    obtain ⟨ol, or, hlk, hrk⟩ := (ordered_node_iff k v h l r).mp ho
    have hlk1 : ∀ p ∈ entries l, p.1 < k := fun p hp => hlk _ (fst_mem_keys hp)
    have hrk1 : ∀ p ∈ entries r, k < p.1 := fun p hp => hrk _ (fst_mem_keys hp)
    obtain ⟨al, ar, hh, h1, h2⟩ := ha
    rw [keys_node, List.mem_append, List.mem_cons] at hk
    simp only [add]
    split
    · rename_i hlt
      have hkl : key ∈ keys l := by
        rcases hk with hx | hx | hx
        · exact hx
        · exact absurd hlt (by rw [hx]; exact lt_irrefl _)
        · exact absurd (lt_trans hlt (hrk _ hx)) (lt_irrefl _)
      obtain ⟨l1, e, hs, he⟩ := ihl al ol hkl
      have hg : getHeight l1 = getHeight l := by
        rw [← getHeight_skeleton l1, hs, getHeight_skeleton]
      have al1 : AVL l1 := (avl_skeleton l1).mp (hs ▸ (avl_skeleton l).mpr al)
      have hnode : AVL (node k v h l1 r) := ⟨al1, ar, by rw [hg]; exact hh, by omega, by omega⟩
      refine ⟨node k v h l1 r, ?_, ?_, ?_⟩
      · rw [e, Option.some_bind]; exact rebalanceTree_of_avl k v v h hnode
      · simp only [skeleton, hs]
      · rw [entries_node, entries_node, he, List.map_append, List.map_cons,
          if_neg (ne_of_gt hlt),
          map_setValue_of_ne value (fun p hp => ne_of_gt (lt_trans hlt (hrk1 p hp)))]
    · split
      · rename_i hnlt hgt
        have hkr : key ∈ keys r := by
          rcases hk with hx | hx | hx
          · exact absurd (lt_trans (hlk _ hx) hgt) (lt_irrefl _)
          · exact absurd hgt (by rw [hx]; exact lt_irrefl _)
          · exact hx
        obtain ⟨r1, e, hs, he⟩ := ihr ar or hkr
        have hg : getHeight r1 = getHeight r := by
          rw [← getHeight_skeleton r1, hs, getHeight_skeleton]
        have ar1 : AVL r1 := (avl_skeleton r1).mp (hs ▸ (avl_skeleton r).mpr ar)
        have hnode : AVL (node k v h l r1) :=
          ⟨al, ar1, by rw [hg]; exact hh, by omega, by omega⟩
        refine ⟨node k v h l r1, ?_, ?_, ?_⟩
        · rw [e, Option.some_bind]; exact rebalanceTree_of_avl k v v h hnode
        · simp only [skeleton, hs]
        · rw [entries_node, entries_node, he, List.map_append, List.map_cons,
            if_neg (ne_of_lt hgt),
            map_setValue_of_ne value (fun p hp => ne_of_lt (lt_trans (hlk1 p hp) hgt))]
      · rename_i hnlt hngt
        have hkk : key = k := le_antisymm (not_lt.mp hngt) (not_lt.mp hnlt)
        subst hkk
        refine ⟨node key value h l r, rebalanceTree_of_avl key v value h ⟨al, ar, hh, h1, h2⟩,
          rfl, ?_⟩
        rw [entries_node, entries_node, List.map_append, List.map_cons, if_pos rfl,
          map_setValue_of_ne value (fun p hp => ne_of_lt (hlk1 p hp)),
          map_setValue_of_ne value (fun p hp => ne_of_gt (hrk1 p hp))]

end AVLNode

namespace AVLTree

open AVLNode

variable {K V : Type} [LinearOrder K]

theorem inv_empty : Inv (empty : AVLTree K V) := ⟨trivial, List.Pairwise.nil⟩

theorem Add_inv {t : AVLTree K V} (ht : Inv t) (key : K) (value : V) :
    ∃ t1, t.Add key value = some t1 ∧ Inv t1 ∧ t.root.add key value = some t1.root := by
  obtain ⟨n1, e, hn1, -, -⟩ := add_avl ht.1 key value
  exact ⟨⟨n1⟩, by simp [Add, e], ⟨hn1, ordered_add ht.2 e⟩, e⟩

theorem Remove_inv {t : AVLTree K V} (ht : Inv t) (key : K) :
    ∃ t1, t.Remove key = some t1 ∧ Inv t1 ∧ t.root.remove key = some t1.root := by
  obtain ⟨n1, e, hn1, -, -⟩ := remove_avl ht.1 key
  exact ⟨⟨n1⟩, by simp [Remove, e], ⟨hn1, ordered_remove ht.2 e⟩, e⟩

theorem Update_eq (t : AVLTree K V) (key : K) (value : V) :
    t.Update key value = (t.Remove key).bind fun t1 => t1.Add key value := by
  unfold Update Remove Add
  cases t.root.remove key <;> rfl

theorem Update_inv {t : AVLTree K V} (ht : Inv t) (key : K) (value : V) :
    ∃ t1, t.Update key value = some t1 ∧ Inv t1 := by
  obtain ⟨t1, e1, h1, -⟩ := Remove_inv ht key
  obtain ⟨t2, e2, h2, -⟩ := Add_inv h1 key value
  exact ⟨t2, by rw [Update_eq, e1, Option.some_bind, e2], h2⟩

theorem apply_inv {t : AVLTree K V} (ht : Inv t) (op : Op K V) :
    ∃ t1, t.apply op = some t1 ∧ Inv t1 := by
  cases op with
  | add k v => obtain ⟨t1, e, h, -⟩ := Add_inv ht k v; exact ⟨t1, e, h⟩
  | update k v => exact Update_inv ht k v
  | remove k => obtain ⟨t1, e, h, -⟩ := Remove_inv ht k; exact ⟨t1, e, h⟩

theorem run_inv {t : AVLTree K V} (ht : Inv t) (ops : List (Op K V)) :
    ∃ t1, t.run ops = some t1 ∧ Inv t1 := by
  induction ops generalizing t with
  | nil => exact ⟨t, rfl, ht⟩
  | cons op ops ih =>
    obtain ⟨t1, e1, h1⟩ := apply_inv ht op
    obtain ⟨t2, e2, h2⟩ := ih h1
    exact ⟨t2, by rw [run, e1, Option.some_bind, e2], h2⟩

theorem Reachable.inv {t : AVLTree K V} (ht : Reachable t) : Inv t := by
  obtain ⟨ops, e⟩ := ht
  obtain ⟨t1, e1, h1⟩ := run_inv inv_empty ops
  rw [e] at e1
  cases e1
  exact h1

theorem run_append (t : AVLTree K V) (ops1 ops2 : List (Op K V)) :
    t.run (ops1 ++ ops2) = (t.run ops1).bind fun t1 => t1.run ops2 := by
  induction ops1 generalizing t with
  | nil => rfl
  | cons op ops ih =>
    simp only [List.cons_append, run]
    cases t.apply op with
    | none => rfl
    | some t1 => simp only [Option.some_bind]; exact ih t1

/-- A run of `Add` calls from a tree with the invariant completes; the keys of the result
are the keys of the tree and the keys added. -/
theorem run_adds_keys {t : AVLTree K V} (ht : Inv t) (kvs : List (K × V)) :
    ∃ t1, run t (kvs.map fun p => Op.add p.1 p.2) = some t1 ∧ Inv t1 ∧
      ∀ x, x ∈ keys t1.root ↔ x ∈ keys t.root ∨ x ∈ kvs.map Prod.fst := by
  induction kvs generalizing t with
  | nil => exact ⟨t, rfl, ht, fun x => by simp⟩
  | cons kv rest ih =>
    obtain ⟨t1, e1, i1, a1⟩ := Add_inv ht kv.1 kv.2
    obtain ⟨t2, e2, i2, hm⟩ := ih i1
    refine ⟨t2, ?_, i2, fun x => ?_⟩
    · simp only [List.map_cons, run, apply, e1, Option.some_bind, e2]
    · rw [hm x, mem_keys_add ht.2 a1 x, List.map_cons, List.mem_cons]
      tauto

/-- A run of `Remove` calls from a tree with the invariant completes; the keys of the
result are the keys of the tree that were not removed. -/
theorem run_removes_keys {t : AVLTree K V} (ht : Inv t) (ks : List K) :
    ∃ t1, run t (ks.map fun k => (Op.remove k : Op K V)) = some t1 ∧ Inv t1 ∧
      ∀ x, x ∈ keys t1.root ↔ x ∈ keys t.root ∧ x ∉ ks := by
  induction ks generalizing t with
  | nil => exact ⟨t, rfl, ht, fun x => by simp⟩
  | cons k rest ih =>
    obtain ⟨t1, e1, i1, r1⟩ := Remove_inv ht k
    obtain ⟨t2, e2, i2, hm⟩ := ih i1
    refine ⟨t2, ?_, i2, fun x => ?_⟩
    · simp only [List.map_cons, run, apply, e1, Option.some_bind, e2]
    · rw [hm x, mem_keys_remove ht.2 r1 x, List.mem_cons]
      tauto

/-- A run of `Add` calls with pairwise distinct keys, none of them in the tree: the pairs
of the result are the pairs of the tree and the pairs added. -/
theorem run_adds_entries {t : AVLTree K V} (ht : Inv t) (kvs : List (K × V))
    (hnd : (kvs.map Prod.fst).Nodup) (hdis : ∀ x ∈ kvs.map Prod.fst, x ∉ keys t.root) :
    ∃ t1, run t (kvs.map fun p => Op.add p.1 p.2) = some t1 ∧ Inv t1 ∧
      ∀ p, p ∈ entries t1.root ↔ p ∈ entries t.root ∨ p ∈ kvs := by
  induction kvs generalizing t with
  | nil => exact ⟨t, rfl, ht, fun x => by simp⟩
  | cons kv rest ih =>
    rw [List.map_cons, List.nodup_cons] at hnd
    obtain ⟨t1, e1, i1, a1⟩ := Add_inv ht kv.1 kv.2
    have hk : kv.1 ∉ keys t.root := hdis kv.1 (by simp)
    have hdis1 : ∀ x ∈ rest.map Prod.fst, x ∉ keys t1.root := by
      intro x hx hx1
      rcases (mem_keys_add ht.2 a1 x).mp hx1 with rfl | h
      · exact hnd.1 hx
      · exact hdis x (by rw [List.map_cons]; exact List.mem_cons_of_mem _ hx) h
    obtain ⟨t2, e2, i2, hm⟩ := ih i1 hnd.2 hdis1
    refine ⟨t2, ?_, i2, fun p => ?_⟩
    · simp only [List.map_cons, run, apply, e1, Option.some_bind, e2]
    · rw [hm p, mem_entries_add ht.2 a1 p, List.mem_cons]
      constructor
      · rintro ((h | ⟨h, -⟩) | h)
        · exact Or.inr (Or.inl h)
        · exact Or.inl h
        · exact Or.inr (Or.inr h)
      · rintro (h | h | h)
        · exact Or.inl (Or.inr ⟨h, fun hp => hk (hp ▸ fst_mem_keys h)⟩)
        · exact Or.inl (Or.inl h)
        · exact Or.inr h

/-! ## Properties of the index -/

/-- C1, ordering invariant: every finite sequence of `Add`, `Update` and `Remove` calls
on the empty tree completes, and the in-order traversal of the tree it yields lists the
keys in strictly ascending order, no key occurring twice. -/
theorem ordering_invariant (ops : List (Op K V)) :
    ∃ t, run empty ops = some t ∧
      (keys t.root).Sorted (· < ·) ∧ (keys t.root).Nodup := by
  obtain ⟨t, e, ht⟩ := run_inv inv_empty ops
  exact ⟨t, e, ht.2, ordered_nodup ht.2⟩

/-- C2, balance invariant: every finite sequence of `Add`, `Update` and `Remove` calls on
the empty tree completes, and in the tree it yields the true heights of the two children
of every node differ by at most one.  Every prefix of a sequence is a sequence, so this
holds after each call. -/
theorem balance_invariant (ops : List (Op K V)) :
    ∃ t, run empty ops = some t ∧ Balanced t.root := by
  obtain ⟨t, e, ht⟩ := run_inv inv_empty ops
  exact ⟨t, e, ht.1.balanced⟩

/-- C3, point lookup: on a tree obtained from the empty tree by `Add`, `Update` and
`Remove` calls, `Search k` returns a node whose key is `k` exactly when `k` occurs in the
in-order key sequence, returns nil when it does not, and leaves the tree as it was. -/
theorem search_correct (t : AVLTree K V) (ht : Reachable t) (k : K) :
    ((∃ v h l r, (t.Search k).1 = node k v h l r) ↔ k ∈ keys t.root) ∧
      (k ∉ keys t.root → (t.Search k).1 = nil) ∧ (t.Search k).2 = t := by
  have ho := ht.inv.2
  refine ⟨?_, ?_, rfl⟩
  · rcases search_spec ho k with ⟨e, hnot⟩ | ⟨v, h, l, r, e, hm⟩
    · constructor
      · rintro ⟨v, h, l, r, e1⟩
        rw [Search, e] at e1
        cases e1
      · intro hk; exact absurd hk hnot
    · exact ⟨fun _ => fst_mem_keys hm, fun _ => ⟨v, h, l, r, e⟩⟩
  · intro hk
    rcases search_spec ho k with ⟨e, -⟩ | ⟨v, h, l, r, -, hm⟩
    · exact e
    · exact absurd (fst_mem_keys hm) hk

/-- Witness of C3: the sample tree, looked up at the key 2. -/
theorem search_correct_witness :
    Reachable sample ∧
      ((∃ v h l r, (sample.Search 2).1 = node 2 v h l r) ↔ 2 ∈ keys sample.root) ∧
      (2 ∉ keys sample.root → (sample.Search 2).1 = nil) ∧ (sample.Search 2).2 = sample :=
  ⟨⟨[Op.add 2 20, Op.add 1 10, Op.add 3 30], by decide⟩,
    search_correct sample ⟨[Op.add 2 20, Op.add 1 10, Op.add 3 30], by decide⟩ 2⟩

/-- C4, upsert: on a tree obtained from the empty tree by `Add`, `Update` and `Remove`
calls, `Add k v1` and then `Add k v2` both complete, after them `Search k` returns a node
whose value is `v2`, and the second `Add` leaves the number of keys as it was. -/
theorem add_upsert (t : AVLTree K V) (ht : Reachable t) (k : K) (v1 v2 : V) :
    ∃ t1 t2, t.Add k v1 = some t1 ∧ t1.Add k v2 = some t2 ∧
      value? (t2.Search k).1 = some v2 ∧
      (keys t2.root).length = (keys t1.root).length := by
  obtain ⟨t1, e1, i1, a1⟩ := Add_inv ht.inv k v1
  obtain ⟨t2, e2, i2, a2⟩ := Add_inv i1 k v2
  refine ⟨t1, t2, e1, e2, ?_, ?_⟩
  · exact (search_value_iff i2.2 k v2).mpr ((mem_entries_add i1.2 a2 _).mpr (Or.inl rfl))
  · have hk : k ∈ keys t1.root := (mem_keys_add ht.inv.2 a1 k).mpr (Or.inl rfl)
    obtain ⟨n1, e, -, he⟩ := add_present i1.1 i1.2 hk v2
    rw [a2] at e
    cases e
    simp only [keys, he, List.length_map]

/-- Witness of C4: the sample tree, the key 4 added with the record 40 and then 41. -/
theorem add_upsert_witness :
    Reachable sample ∧
      ∃ t1 t2, sample.Add 4 40 = some t1 ∧ t1.Add 4 41 = some t2 ∧
        value? (t2.Search 4).1 = some 41 ∧
        (keys t2.root).length = (keys t1.root).length :=
  ⟨⟨[Op.add 2 20, Op.add 1 10, Op.add 3 30], by decide⟩,
    add_upsert sample ⟨[Op.add 2 20, Op.add 1 10, Op.add 3 30], by decide⟩ 4 40 41⟩

/-- C5, removal of a present key: on a tree obtained from the empty tree by `Add`,
`Update` and `Remove` calls, `Remove k` for a key `k` of the tree completes, after it
`Search k` returns nil, and the in-order key sequence is the previous one with `k` taken
out, one key shorter. -/
theorem remove_present (t : AVLTree K V) (ht : Reachable t) (k : K)
    (hk : k ∈ keys t.root) :
    ∃ t1, t.Remove k = some t1 ∧ (t1.Search k).1 = nil ∧
      keys t1.root = (keys t.root).erase k ∧
      (keys t1.root).length + 1 = (keys t.root).length := by
  obtain ⟨t1, e1, i1, r1⟩ := Remove_inv ht.inv k
  have hnot : k ∉ keys t1.root := fun h => ((mem_keys_remove ht.inv.2 r1 k).mp h).2 rfl
  have hkeys : keys t1.root = (keys t.root).erase k := by
    rw [keys_remove ht.inv.2 r1, List.Nodup.erase_eq_filter (ordered_nodup ht.inv.2)]
    congr 1
    funext x
    by_cases h : x = k <;> simp [h]
  refine ⟨t1, e1, ?_, hkeys, ?_⟩
  · rcases search_spec i1.2 k with ⟨e, -⟩ | ⟨v, h, l, r, -, hm⟩
    · exact e
    · exact absurd (fst_mem_keys hm) hnot
  · rw [hkeys, List.length_erase_of_mem hk]
    have := List.length_pos_of_mem hk
    omega

/-- Witness of C5: the root key 2 of the sample tree, a node with two children. -/
theorem remove_present_witness :
    (Reachable sample ∧ 2 ∈ keys sample.root) ∧
      ∃ t1, sample.Remove 2 = some t1 ∧ (t1.Search 2).1 = nil ∧
        keys t1.root = (keys sample.root).erase 2 ∧
        (keys t1.root).length + 1 = (keys sample.root).length :=
  ⟨⟨⟨[Op.add 2 20, Op.add 1 10, Op.add 3 30], by decide⟩, by decide⟩,
    remove_present sample ⟨[Op.add 2 20, Op.add 1 10, Op.add 3 30], by decide⟩ 2
      (by decide)⟩

/-- C6, removal of an absent key: on a tree obtained from the empty tree by `Add`,
`Update` and `Remove` calls, `Remove k` for a key `k` that is not in the tree returns the
very same tree (shape, keys, values and stored heights); `Remove` on the empty tree
leaves it empty and `Search` on the empty tree returns nil. -/
theorem remove_absent_noop (t : AVLTree K V) (ht : Reachable t) (k : K)
    (hk : k ∉ keys t.root) :
    t.Remove k = some t ∧ (empty : AVLTree K V).Remove k = some empty ∧
      ((empty : AVLTree K V).Search k).1 = nil := by
  refine ⟨?_, rfl, rfl⟩
  rw [Remove, remove_absent ht.inv.1 hk]
  rfl

/-- Witness of C6: the key 5, which the sample tree does not hold. -/
theorem remove_absent_noop_witness :
    (Reachable sample ∧ 5 ∉ keys sample.root) ∧
      sample.Remove 5 = some sample ∧ (empty : AVLTree Nat Nat).Remove 5 = some empty ∧
      ((empty : AVLTree Nat Nat).Search 5).1 = nil :=
  ⟨⟨⟨[Op.add 2 20, Op.add 1 10, Op.add 3 30], by decide⟩, by decide⟩,
    remove_absent_noop sample ⟨[Op.add 2 20, Op.add 1 10, Op.add 3 30], by decide⟩ 5
      (by decide)⟩

/-- C7, update as remove-then-add: on a tree obtained from the empty tree by `Add`,
`Update` and `Remove` calls, for every key `k` and record `v`, `Remove k` and then
`Add k v` complete and `Update k v` yields the tree they yield; when `k` is not in the
tree, `Update k v` yields the tree that `Add k v` yields. -/
theorem update_remove_add (t : AVLTree K V) (ht : Reachable t) (k : K) (v : V) :
    (∃ t1 t2, t.Remove k = some t1 ∧ t1.Add k v = some t2 ∧ t.Update k v = some t2) ∧
      (k ∉ keys t.root → t.Update k v = t.Add k v ∧ ∃ t2, t.Add k v = some t2) := by
  obtain ⟨t1, e1, i1, -⟩ := Remove_inv ht.inv k
  obtain ⟨t2, e2, -, -⟩ := Add_inv i1 k v
  refine ⟨⟨t1, t2, e1, e2, by rw [Update_eq, e1, Option.some_bind, e2]⟩, fun hk => ?_⟩
  have hr : t.Remove k = some t := by
    rw [Remove, remove_absent ht.inv.1 hk]
    rfl
  obtain ⟨t3, e3, -, -⟩ := Add_inv ht.inv k v
  exact ⟨by rw [Update_eq, hr, Option.some_bind], t3, e3⟩

/-- Witness of C7: the sample tree updated at its root key 2. -/
theorem update_remove_add_witness :
    Reachable sample ∧
      (∃ t1 t2, sample.Remove 2 = some t1 ∧ t1.Add 2 21 = some t2 ∧
        sample.Update 2 21 = some t2) ∧
      (2 ∉ keys sample.root →
        sample.Update 2 21 = sample.Add 2 21 ∧ ∃ t2, sample.Add 2 21 = some t2) :=
  ⟨⟨[Op.add 2 20, Op.add 1 10, Op.add 3 30], by decide⟩,
    update_remove_add sample ⟨[Op.add 2 20, Op.add 1 10, Op.add 3 30], by decide⟩ 2 21⟩

/-- C9, `Add` on an existing key does not restructure: on a tree obtained from the empty
tree by `Add`, `Update` and `Remove` calls, `Add k v` for a key `k` of the tree completes
with a tree of the same shape, keys and stored heights, in which the pair of `k` holds
`v` and every other pair is as it was. -/
theorem add_existing_in_place (t : AVLTree K V) (ht : Reachable t) (k : K)
    (hk : k ∈ keys t.root) (v : V) :
    ∃ t1, t.Add k v = some t1 ∧ skeleton t1.root = skeleton t.root ∧
      entries t1.root = (entries t.root).map (fun p => if p.1 = k then (k, v) else p) ∧
      value? (t1.Search k).1 = some v ∧
      ∀ k1, k1 ≠ k → value? (t1.Search k1).1 = value? (t.Search k1).1 := by
  obtain ⟨n1, e, hs, he⟩ := add_present ht.inv.1 ht.inv.2 hk v
  have ho1 : Ordered n1 := ordered_add ht.inv.2 e
  refine ⟨⟨n1⟩, by simp [Add, e], hs, he, ?_, ?_⟩
  · exact (search_value_iff ho1 k v).mpr ((mem_entries_add ht.inv.2 e _).mpr (Or.inl rfl))
  · intro k1 hk1
    apply Option.ext
    intro w
    show value? (search n1 k1) = some w ↔ value? (search t.root k1) = some w
    rw [search_value_iff ho1, search_value_iff ht.inv.2, mem_entries_add ht.inv.2 e]
    constructor
    · rintro (h | ⟨h, -⟩)
      · exact absurd (Prod.mk.inj h).1 hk1
      · exact h
    · intro h; exact Or.inr ⟨h, hk1⟩

/-- Witness of C9: the record of the leaf key 3 of the sample tree replaced. -/
theorem add_existing_in_place_witness :
    (Reachable sample ∧ 3 ∈ keys sample.root) ∧
      ∃ t1, sample.Add 3 31 = some t1 ∧ skeleton t1.root = skeleton sample.root ∧
        entries t1.root =
          (entries sample.root).map (fun p => if p.1 = 3 then (3, 31) else p) ∧
        value? (t1.Search 3).1 = some 31 ∧
        ∀ k1, k1 ≠ 3 → value? (t1.Search k1).1 = value? (sample.Search k1).1 :=
  ⟨⟨⟨[Op.add 2 20, Op.add 1 10, Op.add 3 30], by decide⟩, by decide⟩,
    add_existing_in_place sample ⟨[Op.add 2 20, Op.add 1 10, Op.add 3 30], by decide⟩ 3
      (by decide) 31⟩

/-- C8, delete correctness: for every list of pairs added to the empty tree (duplicate
keys allowed) and every ordering of the distinct keys among them, the `Add` calls
followed by `Remove` of each of those keys in that order complete and leave the tree
empty: the root is nil and the height 0. -/
theorem remove_all_empty (kvs : List (K × V)) (ks : List K)
    (hks : ks.Perm (kvs.map Prod.fst).dedup) :
    ∃ t, run empty ((kvs.map fun p => Op.add p.1 p.2) ++ ks.map fun k => Op.remove k) =
        some t ∧ t.root = nil ∧ getHeight t.root = 0 ∧ trueHeight t.root = 0 := by
  obtain ⟨t1, e1, i1, m1⟩ := run_adds_keys (inv_empty : Inv (empty : AVLTree K V)) kvs
  obtain ⟨t2, e2, i2, m2⟩ := run_removes_keys i1 ks
  have hnil : t2.root = nil := by
    apply entries_eq_nil
    have hk : keys t2.root = [] := by
      rw [List.eq_nil_iff_forall_not_mem]
      intro x hx
      obtain ⟨hx1, hx2⟩ := (m2 x).mp hx
      rcases (m1 x).mp hx1 with h | h
      · simp [empty] at h
      · exact hx2 (hks.mem_iff.mpr (List.mem_dedup.mpr h))
    exact List.map_eq_nil_iff.mp hk
  refine ⟨t2, by rw [run_append, e1, Option.some_bind, e2], hnil, ?_, ?_⟩
  · rw [hnil]; rfl
  · rw [hnil]; rfl

/-- Witness of C8: four adds on three distinct keys, removed in another order. -/
theorem remove_all_empty_witness :
    List.Perm [3, 1, 2]
        (List.map Prod.fst [((1 : Nat), (10 : Nat)), (2, 20), (1, 11), (3, 30)]).dedup ∧
      ∃ t, run empty
          (([((1 : Nat), (10 : Nat)), (2, 20), (1, 11), (3, 30)].map fun p => Op.add p.1 p.2) ++
            [3, 1, 2].map fun k => Op.remove k) = some t ∧
        t.root = nil ∧ getHeight t.root = 0 ∧ trueHeight t.root = 0 :=
  ⟨by decide, remove_all_empty [(1, 10), (2, 20), (1, 11), (3, 30)] [3, 1, 2] (by decide)⟩

/-- The shape of the tree depends on the order of the `Add` calls: the keys 1 to 4 added
in ascending order give a tree with root 2, in descending order a tree with root 3. -/
theorem shape_depends_on_order :
    run (empty : AVLTree Nat Nat) [Op.add 1 10, Op.add 2 20, Op.add 3 30, Op.add 4 40] =
        some ⟨node 2 20 3 (node 1 10 1 nil nil) (node 3 30 2 nil (node 4 40 1 nil nil))⟩ ∧
      run (empty : AVLTree Nat Nat) [Op.add 4 40, Op.add 3 30, Op.add 2 20, Op.add 1 10] =
        some ⟨node 3 30 3 (node 2 20 2 (node 1 10 1 nil nil) nil) (node 4 40 1 nil nil)⟩ := by
  constructor <;> decide

/-- C10, insertion-order independence of observations: for every list of pairs with
pairwise distinct keys and every permutation of it, adding the pairs to the empty tree
in either order completes, and the two trees have the same in-order key sequence and
give, for every key, the same `Search` outcome: both not found, or both found with the
same record. -/
theorem insertion_order_independent (kvs kvs1 : List (K × V))
    (hnd : (kvs.map Prod.fst).Nodup) (hp : kvs.Perm kvs1) :
    ∃ t t1, run empty (kvs.map fun p => Op.add p.1 p.2) = some t ∧
      run empty (kvs1.map fun p => Op.add p.1 p.2) = some t1 ∧
      keys t.root = keys t1.root ∧
      ∀ k, value? (t.Search k).1 = value? (t1.Search k).1 := by
  have hnd1 : (kvs1.map Prod.fst).Nodup := (hp.map Prod.fst).nodup_iff.mp hnd
  obtain ⟨t, e, i, m⟩ := run_adds_entries (inv_empty : Inv (empty : AVLTree K V)) kvs hnd
    (fun x _ => by simp [empty])
  obtain ⟨t1, e1, i1, m1⟩ := run_adds_entries (inv_empty : Inv (empty : AVLTree K V)) kvs1 hnd1
    (fun x _ => by simp [empty])
  have hmem : ∀ p, p ∈ entries t.root ↔ p ∈ entries t1.root := by
    intro p
    rw [m p, m1 p, hp.mem_iff]
  refine ⟨t, t1, e, e1, ?_, ?_⟩
  · apply List.eq_of_perm_of_sorted _ i.2 i1.2
    rw [List.perm_ext_iff_of_nodup (ordered_nodup i.2) (ordered_nodup i1.2)]
    intro x
    simp only [keys, List.mem_map, hmem]
  · intro k
    apply Option.ext
    intro w
    show value? (search t.root k) = some w ↔ value? (search t1.root k) = some w
    rw [search_value_iff i.2, search_value_iff i1.2, hmem]

/-- Witness of C10: four pairs added in ascending and in descending key order; the two
trees differ in shape (roots 2 and 3). -/
theorem insertion_order_independent_witness :
    ((List.map Prod.fst [((1 : Nat), (10 : Nat)), (2, 20), (3, 30), (4, 40)]).Nodup ∧
        List.Perm [((1 : Nat), (10 : Nat)), (2, 20), (3, 30), (4, 40)]
          [(4, 40), (3, 30), (2, 20), (1, 10)]) ∧
      ∃ t t1,
        run empty ([((1 : Nat), (10 : Nat)), (2, 20), (3, 30), (4, 40)].map
          fun p => Op.add p.1 p.2) = some t ∧
        run empty ([((4 : Nat), (40 : Nat)), (3, 30), (2, 20), (1, 10)].map
          fun p => Op.add p.1 p.2) = some t1 ∧
        keys t.root = keys t1.root ∧
        ∀ k, value? (t.Search k).1 = value? (t1.Search k).1 :=
  ⟨⟨by decide, by decide⟩,
    insertion_order_independent [(1, 10), (2, 20), (3, 30), (4, 40)]
      [(4, 40), (3, 30), (2, 20), (1, 10)] (by decide) (by decide)⟩

end AVLTree

/-! ## Stored heights and the in-order display -/

namespace AVLNode

variable {K V : Type}

/-- The stored heights of an AVL tree obey the height recurrence and are positive. -/
theorem storedHeights_of_avl {n : AVLNode K V} (hn : AVL n) : StoredHeights n := by
  induction n with
  | nil => trivial
  | node k v h l r ihl ihr =>
    obtain ⟨hl, hr, hh, _, _⟩ := hn
    have := getHeight_nonneg hl
    have := getHeight_nonneg hr
    exact ⟨hh, by omega, ihl hl, ihr hr⟩

/-- On a non-nil node `displayNodesInOrder` completes and prints the in-order keys. -/
theorem displayNodesInOrder_spec (n : AVLNode K V) (hn : n ≠ nil) :
    displayNodesInOrder n = some (keys n) := by
  induction n with
  | nil => exact absurd rfl hn
  | node k v h l r ihl ihr =>
    rw [displayNodesInOrder.eq_def]
    cases l with
    | nil =>
      cases r with
      | nil => rfl
      | node rk rv rh rl rr =>
        simp only [Option.some_bind]
        rw [ihr (by simp)]
        simp
    | node lk lv lh ll lr =>
      cases r with
      | nil =>
        simp only
        rw [ihl (by simp)]
        simp
      | node rk rv rh rl rr =>
        simp only
        rw [ihl (by simp), ihr (by simp)]
        simp

variable [LinearOrder K]

/-- On an ordered tree, a successful `add` leaves the lookup of every other key as it
was. -/
theorem add_frame {n n1 : AVLNode K V} (ho : Ordered n) {key : K} {value : V}
    (h : add n key value = some n1) {k1 : K} (hk : k1 ≠ key) :
    value? (search n1 k1) = value? (search n k1) := by
  apply Option.ext
  intro w
  show value? (search n1 k1) = some w ↔ value? (search n k1) = some w
  rw [search_value_iff (ordered_add ho h), search_value_iff ho, mem_entries_add ho h]
  constructor
  · rintro (e | ⟨hm, -⟩)
    · exact absurd (Prod.mk.inj e).1 hk
    · exact hm
  · intro hm; exact Or.inr ⟨hm, hk⟩

/-- On an ordered tree, a successful `remove` leaves the lookup of every other key as it
was. -/
theorem remove_frame {n n1 : AVLNode K V} (ho : Ordered n) {key : K}
    (h : remove n key = some n1) {k1 : K} (hk : k1 ≠ key) :
    value? (search n1 k1) = value? (search n k1) := by
  apply Option.ext
  intro w
  show value? (search n1 k1) = some w ↔ value? (search n k1) = some w
  rw [search_value_iff (ordered_remove ho h), search_value_iff ho, remove_entries ho h,
    List.mem_filter]
  simp [hk]

/-- On an ordered tree, after a successful `remove` the lookup of the key finds
nothing. -/
theorem remove_search_self {n n1 : AVLNode K V} (ho : Ordered n) {key : K}
    (h : remove n key = some n1) : search n1 key = nil := by
  rcases search_spec (ordered_remove ho h) key with ⟨e, -⟩ | ⟨v, h1, l, r, -, hm⟩
  · exact e
  · exact absurd rfl ((mem_keys_remove ho h key).mp (fst_mem_keys hm)).2

/-- On an ordered tree, after a successful `add` the lookup of the key finds the value
added. -/
theorem add_search_self {n n1 : AVLNode K V} (ho : Ordered n) {key : K} {value : V}
    (h : add n key value = some n1) : value? (search n1 key) = some value :=
  (search_value_iff (ordered_add ho h) key value).mpr
    ((mem_entries_add ho h _).mpr (Or.inl rfl))

end AVLNode

namespace AVLTree

open AVLNode

variable {K V : Type}

/-- C19, evaluation at the failing input: `DisplayInOrder` on the empty tree calls
`displayNodesInOrder` on the nil root, which reads `n.left`: a nil dereference. -/
theorem displayInOrder_empty_panics : DisplayInOrder (empty : AVLTree K V) = none :=
  rfl

/-- On every tree but the empty one, reachable or not, `DisplayInOrder` completes and
prints the in-order keys. -/
theorem displayInOrder_nonempty (t : AVLTree K V) (ht : t.root ≠ nil) :
    DisplayInOrder t = some (keys t.root) :=
  displayNodesInOrder_spec t.root ht

variable [LinearOrder K]

/-- C18, cached heights are exact: every finite sequence of `Add`, `Update` and `Remove`
calls on the empty tree completes, and in the tree it yields every node stores a height
that is `1 + max` of the stored heights of its children (0 for nil), is at least 1, and
equals the true height of the subtree; rotated nodes are nodes of that tree. -/
theorem cached_heights_exact (ops : List (Op K V)) :
    ∃ t, run empty ops = some t ∧ StoredHeights t.root ∧ HeightsExact t.root := by
  obtain ⟨t, e, ht⟩ := run_inv inv_empty ops
  exact ⟨t, e, storedHeights_of_avl ht.1, ht.1.heightsExact⟩

/-- C20, other keys are untouched: on a tree obtained from the empty tree by `Add`,
`Update` and `Remove` calls, `Add k v`, `Update k v` and `Remove k` complete, and for
every key `k1` other than `k` the outcome of `Search k1` (not found, or the record
found) is after each of them what it was before. -/
theorem other_keys_untouched (t : AVLTree K V) (ht : Reachable t) (k : K) (v : V)
    (k1 : K) (hk : k1 ≠ k) :
    ∃ ta tu tr, t.Add k v = some ta ∧ t.Update k v = some tu ∧ t.Remove k = some tr ∧
      value? (ta.Search k1).1 = value? (t.Search k1).1 ∧
      value? (tu.Search k1).1 = value? (t.Search k1).1 ∧
      value? (tr.Search k1).1 = value? (t.Search k1).1 := by
  obtain ⟨ta, ea, -, aa⟩ := Add_inv ht.inv k v
  obtain ⟨tr, er, ir, rr⟩ := Remove_inv ht.inv k
  obtain ⟨tu, eu, -, au⟩ := Add_inv ir k v
  refine ⟨ta, tu, tr, ea, by rw [Update_eq, er, Option.some_bind, eu], er, ?_, ?_, ?_⟩
  · exact add_frame ht.inv.2 aa hk
  · exact (add_frame ir.2 au hk).trans (remove_frame ht.inv.2 rr hk)
  · exact remove_frame ht.inv.2 rr hk

/-- Witness of C20: the sample tree changed at its root key 2, observed at the key 3. -/
theorem other_keys_untouched_witness :
    (Reachable sample ∧ (3 : Nat) ≠ 2) ∧
      ∃ ta tu tr, sample.Add 2 21 = some ta ∧ sample.Update 2 21 = some tu ∧
        sample.Remove 2 = some tr ∧
        value? (ta.Search 3).1 = value? (sample.Search 3).1 ∧
        value? (tu.Search 3).1 = value? (sample.Search 3).1 ∧
        value? (tr.Search 3).1 = value? (sample.Search 3).1 :=
  ⟨⟨⟨[Op.add 2 20, Op.add 1 10, Op.add 3 30], by decide⟩, by decide⟩,
    other_keys_untouched sample ⟨[Op.add 2 20, Op.add 1 10, Op.add 3 30], by decide⟩ 2 21 3
      (by decide)⟩

end AVLTree

/-! ## The digest -/

theorem decimalBytesAux_eq (fuel m : Nat) (acc : List Nat) (hf : m < fuel) (hm : 0 < m) :
    decimalBytesAux fuel m acc = ((Nat.digits 10 m).reverse.map fun d => d + 48) ++ acc := by
  induction fuel generalizing m acc with
  | zero => omega
  | succ fuel ih =>
    rw [decimalBytesAux]
    split
    · rename_i hlt
      rw [Nat.digits_of_lt 10 m (by omega) hlt]
      rfl
    · rename_i hge
      rw [ih (m / 10) _ (by omega) (by omega), Nat.digits_def' (by omega) hm]
      simp

theorem decimalBytes_eq (m : Nat) (hm : 0 < m) :
    decimalBytes m = (Nat.digits 10 m).reverse.map fun d => d + 48 := by
  rw [decimalBytes, decimalBytesAux_eq (m + 1) m [] (by omega) hm, List.append_nil]

theorem decimalBytes_zero : decimalBytes 0 = [48] := rfl

theorem decimalBytes_ge (m x : Nat) (hx : x ∈ decimalBytes m) : 48 ≤ x := by
  rcases Nat.eq_zero_or_pos m with rfl | hm
  · rw [decimalBytes_zero] at hx
    simp at hx
    omega
  · rw [decimalBytes_eq m hm] at hx
    obtain ⟨d, -, rfl⟩ := List.mem_map.mp hx
    omega

theorem decimalBytes_injective : Function.Injective decimalBytes := by
  have hinj : Function.Injective (fun d : Nat => d + 48) := fun a b h => by
    simp only at h; omega
  have key : ∀ m : Nat, 0 < m → decimalBytes m ≠ [48] := by
    intro m hm h
    rw [decimalBytes_eq m hm] at h
    have h1 : (Nat.digits 10 m).reverse = [0] := by
      apply List.map_injective_iff.mpr hinj
      rw [h]; rfl
    have h2 : Nat.digits 10 m = [0] := by
      have := congrArg List.reverse h1
      rwa [List.reverse_reverse] at this
    have h3 := Nat.getLast_digit_ne_zero 10 (Nat.pos_iff_ne_zero.mp hm)
    simp [h2] at h3
  intro m1 m2 h
  rcases Nat.eq_zero_or_pos m1 with rfl | h1
  · rcases Nat.eq_zero_or_pos m2 with rfl | h2
    · rfl
    · exact absurd h.symm (key m2 h2)
  · rcases Nat.eq_zero_or_pos m2 with rfl | h2
    · exact absurd h (key m1 h1)
    · rw [decimalBytes_eq m1 h1, decimalBytes_eq m2 h2] at h
      exact Nat.digits.injective 10 (List.reverse_injective (List.map_injective_iff.mpr hinj h))

/-- Distinct integers have distinct decimal texts. -/
theorem Itoa_injective : Function.Injective Itoa := by
  intro a b h
  unfold Itoa at h
  split at h <;> split at h
  · have := decimalBytes_injective (List.cons.inj h).2
    omega
  · have := decimalBytes_ge b.natAbs 45 (by rw [← h]; exact List.mem_cons_self _ _)
    omega
  · have := decimalBytes_ge a.natAbs 45 (by rw [h]; exact List.mem_cons_self _ _)
    omega
  · have := decimalBytes_injective h
    omega

open AVLNode

theorem hash_node_some {K : Type} (H : List Nat → List Nat) (bytes : K → List Nat)
    (key : K) (tx : Transaction K) (h : Int) (l r : AVLNode K (Option (Transaction K))) :
    ComputeIndexNodeHash H bytes (node key (some tx) h l r) =
      (ComputeIndexNodeHash H bytes l).bind fun lh =>
        (ComputeIndexNodeHash H bytes r).bind fun rh =>
          some (H (bytes key ++ Itoa tx.TID ++ lh ++ rh)) := rfl

/-- The digest of a tree whose records are all present is defined. -/
theorem hash_defined {K : Type} (H : List Nat → List Nat) (bytes : K → List Nat)
    {n : AVLNode K (Option (Transaction K))} (hp : allPresent n = true) :
    ∃ d, ComputeIndexNodeHash H bytes n = some d := by
  induction n with
  | nil => exact ⟨[], rfl⟩
  | node k v h l r ihl ihr =>
    simp only [allPresent, Bool.and_eq_true] at hp
    obtain ⟨⟨hv, hl⟩, hr⟩ := hp
    obtain ⟨lh, el⟩ := ihl hl
    obtain ⟨rh, er⟩ := ihr hr
    obtain ⟨tx, rfl⟩ := Option.isSome_iff_exists.mp hv
    exact ⟨_, by rw [hash_node_some, el, er]; rfl⟩

/-- A defined digest of a non-nil node is the hash of the key, the decimal `TID`, the
left digest and the right digest, in this order, and the node holds a record. -/
theorem hash_node_inv {K : Type} {H : List Nat → List Nat} {bytes : K → List Nat}
    {key : K} {v : Option (Transaction K)} {h : Int}
    {l r : AVLNode K (Option (Transaction K))} {d : List Nat}
    (hd : ComputeIndexNodeHash H bytes (node key v h l r) = some d) :
    ∃ tx lh rh, v = some tx ∧ ComputeIndexNodeHash H bytes l = some lh ∧
      ComputeIndexNodeHash H bytes r = some rh ∧
      d = H (bytes key ++ Itoa tx.TID ++ lh ++ rh) := by
  rw [ComputeIndexNodeHash] at hd
  obtain ⟨lh, el, hd⟩ := Option.bind_eq_some.mp hd
  obtain ⟨rh, er, hd⟩ := Option.bind_eq_some.mp hd
  cases v with
  | none => simp at hd
  | some tx =>
    simp only [Option.some.injEq] at hd
    exact ⟨tx, lh, rh, rfl, el, er, hd.symm⟩

/-- With a collision-free hash, replacing the record of one node by a record with another
`TID` changes the digest of every subtree that holds the node. -/
theorem hash_replace {K : Type} {H : List Nat → List Nat} (hH : Function.Injective H)
    (bytes : K → List Nat) (n : AVLNode K (Option (Transaction K))) (p : List Dir)
    (old w : Transaction K) (d : List Nat) (hrec : recordAt n p = some (some old))
    (htid : old.TID ≠ w.TID) (hd : ComputeIndexNodeHash H bytes n = some d) :
    ∃ n1 d1, replaceRecord n p (some w) = some n1 ∧
      ComputeIndexNodeHash H bytes n1 = some d1 ∧ d1 ≠ d := by
  induction n generalizing p d with
  | nil => simp [recordAt] at hrec
  | node k v h l r ihl ihr =>
    obtain ⟨tx, lh, rh, rfl, el, er, rfl⟩ := hash_node_inv hd
    cases p with
    | nil =>
      simp only [recordAt, Option.some.injEq] at hrec
      subst hrec
      refine ⟨node k (some w) h l r, _, rfl, by rw [hash_node_some, el, er]; rfl, ?_⟩
      intro e
      have e1 := hH e
      rw [List.append_left_inj, List.append_left_inj, List.append_right_inj] at e1
      exact htid (Itoa_injective e1).symm
    | cons c p =>
      cases c with
      | left =>
        obtain ⟨l1, d1, e1, e2, hne⟩ := ihl p lh hrec el
        refine ⟨node k (some tx) h l1 r, _, by simp [replaceRecord, e1],
          by rw [hash_node_some, e2, er]; rfl, ?_⟩
        intro e
        have e3 := hH e
        rw [List.append_left_inj, List.append_right_inj] at e3
        exact hne e3
      | right =>
        obtain ⟨r1, d1, e1, e2, hne⟩ := ihr p rh hrec er
        refine ⟨node k (some tx) h l r1, _, by simp [replaceRecord, e1],
          by rw [hash_node_some, el, e2]; rfl, ?_⟩
        intro e
        have e3 := hH e
        rw [List.append_right_inj] at e3
        exact hne e3

/-- C11 as stated fails: with a collision-free hash the code does not hash the left
digest first.  No injective `H` makes the digest of every node the hash of left digest,
key, decimal `TID`, right digest: the nodes with keys 97 and 98 over the leaves with keys
65 and 66 tell the two orders apart. -/
theorem digest_order_counterexample :
    ¬ ∃ H : List Nat → List Nat, Function.Injective H ∧
      ∀ (key : Nat) (tx : Transaction Nat) (h : Int)
        (l r : AVLNode Nat (Option (Transaction Nat))) (lh rh : List Nat),
        ComputeIndexNodeHash H (fun k => [k]) l = some lh →
        ComputeIndexNodeHash H (fun k => [k]) r = some rh →
        ComputeIndexNodeHash H (fun k => [k]) (node key (some tx) h l r) =
          some (H (lh ++ [key] ++ Itoa tx.TID ++ rh)) := by
  rintro ⟨H, hH, hall⟩
  have key : ∀ a : Nat, H ([a] ++ Itoa 0 ++ [] ++ []) = [] := by
    intro a
    cases hw : H ([a] ++ Itoa 0 ++ [] ++ []) with
    | nil => rfl
    | cons x w =>
      have hleaf : ComputeIndexNodeHash H (fun k => [k])
          (node a (some ⟨0, TxType.REGISTER, a, []⟩) 1 nil nil) = some (x :: w) := by
        rw [hash_node_some]; simp only [ComputeIndexNodeHash, Option.some_bind]; rw [hw]
      have f : ∀ c : Nat, c = x := by
        intro c
        have h1 := hall c ⟨0, TxType.REGISTER, c, []⟩ 2
          (node a (some ⟨0, TxType.REGISTER, a, []⟩) 1 nil nil) nil (x :: w) [] hleaf rfl
        rw [hash_node_some, hleaf] at h1
        simp only [ComputeIndexNodeHash, Option.some_bind, Option.some.injEq] at h1
        have h2 := congrArg List.head? (hH h1)
        simpa using h2
      have h97 := f 97
      have h98 := f 98
      omega
  have h1 := hH ((key 65).trans (key 66).symm)
  have h2 := congrArg List.head? h1
  simp at h2

/-- C11, as amended: the digest of nil is the empty value, and the digest of a non-nil
node whose subtrees hold a record at every node is defined and is the hash of the key,
then the decimal `TID` of its transaction, then the left digest, then the right digest
(`H` standing for SHA-256). -/
theorem digest_definition {K : Type} (H : List Nat → List Nat) (bytes : K → List Nat)
    (key : K) (tx : Transaction K) (h : Int) (l r : AVLNode K (Option (Transaction K)))
    (hl : allPresent l = true) (hr : allPresent r = true) :
    ComputeIndexNodeHash H bytes (nil : AVLNode K (Option (Transaction K))) = some [] ∧
      ∃ lh rh, ComputeIndexNodeHash H bytes l = some lh ∧
        ComputeIndexNodeHash H bytes r = some rh ∧
        ComputeIndexNodeHash H bytes (node key (some tx) h l r) =
          some (H (bytes key ++ Itoa tx.TID ++ lh ++ rh)) := by
  obtain ⟨lh, el⟩ := hash_defined H bytes hl
  obtain ⟨rh, er⟩ := hash_defined H bytes hr
  exact ⟨rfl, lh, rh, el, er, by rw [hash_node_some, el, er]; rfl⟩

/-- Witness of C11 as amended: a node with key 98 and `TID` 7 over a left leaf with key
97 and `TID` 5, the hash being a stand-in that puts the length in front. -/
theorem digest_definition_witness :
    (allPresent (node 97 (some (⟨5, TxType.REGISTER, 97, []⟩ : Transaction Nat)) 1 nil nil) =
        true ∧
      allPresent (nil : AVLNode Nat (Option (Transaction Nat))) = true) ∧
    (ComputeIndexNodeHash (fun x => x.length :: x) (fun k => [k])
        (nil : AVLNode Nat (Option (Transaction Nat))) = some [] ∧
      ∃ lh rh,
        ComputeIndexNodeHash (fun x => x.length :: x) (fun k => [k])
          (node 97 (some (⟨5, TxType.REGISTER, 97, []⟩ : Transaction Nat)) 1 nil nil) =
            some lh ∧
        ComputeIndexNodeHash (fun x => x.length :: x) (fun k => [k])
          (nil : AVLNode Nat (Option (Transaction Nat))) = some rh ∧
        ComputeIndexNodeHash (fun x => x.length :: x) (fun k => [k])
          (node 98 (some (⟨7, TxType.UPDATE, 98, []⟩ : Transaction Nat)) 2
            (node 97 (some ⟨5, TxType.REGISTER, 97, []⟩) 1 nil nil) nil) =
          some ((fun x => x.length :: x) ([98] ++ Itoa 7 ++ lh ++ rh))) :=
  ⟨⟨by decide, by decide⟩,
    digest_definition (fun x => x.length :: x) (fun k => [k]) 98 ⟨7, TxType.UPDATE, 98, []⟩ 2
      (node 97 (some ⟨5, TxType.REGISTER, 97, []⟩) 1 nil nil) nil (by decide) (by decide)⟩

/-- C12 as stated fails: a record that differs from the stored one only outside its `TID`
leaves the digest as it was, whatever the hash.  The one-node tree with key 1 holds a
record with `TID` 7; the record put in its place has `TID` 7 and another payload. -/
theorem digest_sensitivity_counterexample :
    (⟨7, TxType.REGISTER, 1, [1]⟩ : Transaction Nat) ≠ ⟨7, TxType.REGISTER, 1, [2]⟩ ∧
      recordAt (node 1 (some (⟨7, TxType.REGISTER, 1, [1]⟩ : Transaction Nat)) 1 nil nil) [] =
        some (some ⟨7, TxType.REGISTER, 1, [1]⟩) ∧
      replaceRecord (node 1 (some (⟨7, TxType.REGISTER, 1, [1]⟩ : Transaction Nat)) 1 nil nil)
          [] (some ⟨7, TxType.REGISTER, 1, [2]⟩) =
        some (node 1 (some ⟨7, TxType.REGISTER, 1, [2]⟩) 1 nil nil) ∧
      ∀ (H : List Nat → List Nat) (bytes : Nat → List Nat),
        ComputeIndexNodeHash H bytes
            (node 1 (some (⟨7, TxType.REGISTER, 1, [2]⟩ : Transaction Nat)) 1 nil nil) =
          ComputeIndexNodeHash H bytes
            (node 1 (some (⟨7, TxType.REGISTER, 1, [1]⟩ : Transaction Nat)) 1 nil nil) :=
  ⟨by decide, rfl, rfl, fun _ _ => rfl⟩

/-- C12, as amended: with a collision-free hash (`H` injective, standing for SHA-256),
in a tree whose digest is defined, replacing the record of any node by a record with a
different `TID` yields a tree whose digest is defined and differs from the digest before.
-/
theorem digest_sensitive_tid {K : Type} (H : List Nat → List Nat)
    (hH : Function.Injective H) (bytes : K → List Nat)
    (n : AVLNode K (Option (Transaction K))) (p : List Dir) (old w : Transaction K)
    (hp : allPresent n = true) (hrec : recordAt n p = some (some old))
    (htid : old.TID ≠ w.TID) :
    ∃ n1 d d1, replaceRecord n p (some w) = some n1 ∧
      ComputeIndexNodeHash H bytes n = some d ∧
      ComputeIndexNodeHash H bytes n1 = some d1 ∧ d1 ≠ d := by
  obtain ⟨d, hd⟩ := hash_defined H bytes hp
  obtain ⟨n1, d1, e1, e2, hne⟩ := hash_replace hH bytes n p old w d hrec htid hd
  exact ⟨n1, d, d1, e1, hd, e2, hne⟩

/-- Witness of C12 as amended: the record of the left leaf of a two-node tree replaced by
a record with `TID` 6 instead of 5; the hash is the injective stand-in that puts the
length in front. -/
theorem digest_sensitive_tid_witness :
    (Function.Injective (fun x : List Nat => x.length :: x) ∧
      allPresent (node 98 (some (⟨7, TxType.UPDATE, 98, []⟩ : Transaction Nat)) 2
        (node 97 (some ⟨5, TxType.REGISTER, 97, []⟩) 1 nil nil) nil) = true ∧
      recordAt (node 98 (some (⟨7, TxType.UPDATE, 98, []⟩ : Transaction Nat)) 2
        (node 97 (some ⟨5, TxType.REGISTER, 97, []⟩) 1 nil nil) nil) [Dir.left] =
          some (some ⟨5, TxType.REGISTER, 97, []⟩) ∧
      (5 : Int) ≠ 6) ∧
    ∃ n1 d d1,
      replaceRecord (node 98 (some (⟨7, TxType.UPDATE, 98, []⟩ : Transaction Nat)) 2
        (node 97 (some ⟨5, TxType.REGISTER, 97, []⟩) 1 nil nil) nil) [Dir.left]
          (some ⟨6, TxType.REGISTER, 97, []⟩) = some n1 ∧
      ComputeIndexNodeHash (fun x => x.length :: x) (fun k => [k])
        (node 98 (some (⟨7, TxType.UPDATE, 98, []⟩ : Transaction Nat)) 2
          (node 97 (some ⟨5, TxType.REGISTER, 97, []⟩) 1 nil nil) nil) = some d ∧
      ComputeIndexNodeHash (fun x => x.length :: x) (fun k => [k]) n1 = some d1 ∧ d1 ≠ d :=
  ⟨⟨fun a b h => (List.cons.inj h).2, by decide, by decide, by decide⟩,
    digest_sensitive_tid (fun x => x.length :: x) (fun a b h => (List.cons.inj h).2)
      (fun k => [k])
      (node 98 (some ⟨7, TxType.UPDATE, 98, []⟩) 2
        (node 97 (some ⟨5, TxType.REGISTER, 97, []⟩) 1 nil nil) nil)
      [Dir.left] ⟨5, TxType.REGISTER, 97, []⟩ ⟨6, TxType.REGISTER, 97, []⟩
      (by decide) (by decide) (by decide)⟩

/-! ## The node: application of a block -/

theorem value?_eq_none {K V : Type} {n : AVLNode K V} (h : value? n = none) : n = nil := by
  cases n with
  | nil => rfl
  | node k v h0 l r => simp [value?] at h

namespace Node

open AVLTree

variable {K : Type}

theorem mem_RemoveTxsFromPool {txs : List (Transaction K)} {pool : List (Int × Transaction K)}
    {e : Int × Transaction K} (he : e ∈ RemoveTxsFromPool txs pool) :
    e ∈ pool ∧ ∀ tx ∈ txs, tx.TID ≠ e.1 := by
  unfold RemoveTxsFromPool at he
  rw [List.mem_filter] at he
  refine ⟨he.1, fun tx htx h => ?_⟩
  have h2 := he.2
  simp only [Bool.not_eq_true', List.any_eq_false, decide_eq_true_eq] at h2
  exact h2 tx htx h

variable [LinearOrder K]

/-- One transaction applied to an index with the invariant: the call completes, keeps
the invariant, leaves the lookup of every other domain as it was, and decides the lookup
of its own domain by its kind. -/
theorem applyTx_spec {idx : AVLTree K (Option (Transaction K))} (hi : Inv idx)
    (tx : Transaction K) :
    ∃ idx1, applyTx idx tx = some idx1 ∧ Inv idx1 ∧
      (∀ k1, k1 ≠ tx.DomainName →
        value? (search idx1.root k1) = value? (search idx.root k1)) ∧
      (tx.Kind = TxType.REVOKE → search idx1.root tx.DomainName = nil) ∧
      (tx.Kind = TxType.REGISTER ∨ tx.Kind = TxType.UPDATE →
        value? (search idx1.root tx.DomainName) = some (some tx)) := by
  unfold applyTx
  cases hk : tx.Kind with
  | REGISTER =>
    obtain ⟨t1, e1, i1, a1⟩ := Add_inv hi tx.DomainName (some tx)
    exact ⟨t1, e1, i1, fun k1 h1 => add_frame hi.2 a1 h1, (fun h => by cases h),
      fun _ => add_search_self hi.2 a1⟩
  | UPDATE =>
    obtain ⟨t1, e1, i1, r1⟩ := Remove_inv hi tx.DomainName
    obtain ⟨t2, e2, i2, a2⟩ := Add_inv i1 tx.DomainName (some tx)
    refine ⟨t2, by simp only; rw [Update_eq, e1, Option.some_bind, e2], i2, ?_,
      (fun h => by cases h), fun _ => add_search_self i1.2 a2⟩
    intro k1 h1
    exact (add_frame i1.2 a2 h1).trans (remove_frame hi.2 r1 h1)
  | REVOKE =>
    obtain ⟨t1, e1, i1, r1⟩ := Remove_inv hi tx.DomainName
    exact ⟨t1, e1, i1, fun k1 h1 => remove_frame hi.2 r1 h1,
      fun _ => remove_search_self hi.2 r1, (fun h => by rcases h with h | h <;> cases h)⟩
  | other code =>
    exact ⟨idx, rfl, hi, fun _ _ => rfl, (fun h => by cases h),
      (fun h => by rcases h with h | h <;> cases h)⟩

/-- The loop on an index with the invariant completes and keeps the invariant. -/
theorem applyTxs_total {idx : AVLTree K (Option (Transaction K))} (hi : Inv idx)
    (txs : List (Transaction K)) :
    ∃ idx1, applyTxs idx txs = some idx1 ∧ Inv idx1 := by
  induction txs generalizing idx with
  | nil => exact ⟨idx, rfl, hi⟩
  | cons tx rest ih =>
    obtain ⟨t1, e1, i1, -⟩ := applyTx_spec hi tx
    obtain ⟨t2, e2, i2⟩ := ih i1
    exact ⟨t2, by rw [applyTxs, e1, Option.some_bind, e2], i2⟩

/-- Transactions for other domains leave the lookup of a domain as it was. -/
theorem applyTxs_frame {idx : AVLTree K (Option (Transaction K))} (hi : Inv idx)
    (txs : List (Transaction K)) (d : K) (hd : ∀ t ∈ txs, t.DomainName ≠ d) :
    ∃ idx1, applyTxs idx txs = some idx1 ∧ Inv idx1 ∧
      value? (search idx1.root d) = value? (search idx.root d) := by
  induction txs generalizing idx with
  | nil => exact ⟨idx, rfl, hi, rfl⟩
  | cons tx rest ih =>
    obtain ⟨t1, e1, i1, f1, -, -⟩ := applyTx_spec hi tx
    obtain ⟨t2, e2, i2, f2⟩ := ih i1 (fun t ht => hd t (List.mem_cons_of_mem _ ht))
    refine ⟨t2, by rw [applyTxs, e1, Option.some_bind, e2], i2, ?_⟩
    rw [f2]
    exact f1 d (fun h => hd tx (List.mem_cons_self _ _) h.symm)

theorem applyTxs_append (idx : AVLTree K (Option (Transaction K)))
    (txs1 txs2 : List (Transaction K)) :
    applyTxs idx (txs1 ++ txs2) = (applyTxs idx txs1).bind fun idx1 => applyTxs idx1 txs2 := by
  induction txs1 generalizing idx with
  | nil => rfl
  | cons tx rest ih =>
    simp only [List.cons_append, applyTxs]
    cases applyTx idx tx with
    | none => rfl
    | some t1 => simp only [Option.some_bind]; exact ih t1

/-- The last transaction of a list for its domain decides the lookup of that domain. -/
theorem applyTxs_last {idx : AVLTree K (Option (Transaction K))} (hi : Inv idx)
    (pre post : List (Transaction K)) (tx : Transaction K)
    (hlast : ∀ t ∈ post, t.DomainName ≠ tx.DomainName) :
    ∃ idx1, applyTxs idx (pre ++ tx :: post) = some idx1 ∧ Inv idx1 ∧
      (tx.Kind = TxType.REVOKE → search idx1.root tx.DomainName = nil) ∧
      (tx.Kind = TxType.REGISTER ∨ tx.Kind = TxType.UPDATE →
        value? (search idx1.root tx.DomainName) = some (some tx)) := by
  obtain ⟨t1, e1, i1⟩ := applyTxs_total hi pre
  obtain ⟨t2, e2, i2, -, hrev, hreg⟩ := applyTx_spec i1 tx
  obtain ⟨t3, e3, i3, f3⟩ := applyTxs_frame i2 post tx.DomainName hlast
  refine ⟨t3, ?_, i3, ?_, ?_⟩
  · rw [applyTxs_append, e1, Option.some_bind, applyTxs, e2, Option.some_bind, e3]
  · intro h
    apply value?_eq_none
    rw [f3, hrev h]
    rfl
  · intro h
    rw [f3, hreg h]

/-- A block that passes validation, on a node whose loop completes: the events and the
node after `AddBlock`. -/
theorem AddBlockRun_accepted (c : Consensus K) (n : Node K) (block : Block K) (epoch : Int)
    (he : epochOf n.Config block = some epoch)
    (hg : block.Index = 0 →
      c.ValidateGenesisBlock block n.RegistryKeys (c.GetSlotLeader n epoch) = true)
    (hb : block.Index ≠ 0 →
      c.ValidateBlock block (GetLatestBlock n.Blockchain) (c.GetSlotLeader n epoch) = true)
    (idx : AVLTree K (Option (Transaction K)))
    (hidx : applyTxs n.IndexManager block.Transactions = some idx) :
    AddBlockRun c n block =
      ([Event.lock Mutex.TxMutex, Event.unlock Mutex.TxMutex,
          Event.lock Mutex.BcMutex, Event.unlock Mutex.BcMutex],
        some { n with
          IndexManager := idx
          TransactionPool := RemoveTxsFromPool block.Transactions n.TransactionPool
          Blockchain := n.Blockchain ++ [block] }) := by
  unfold AddBlockRun
  rw [he]
  simp only [hidx]
  by_cases h0 : block.Index = 0
  · simp [h0, hg h0]
  · simp [h0, hb h0]

/-- A block that fails validation: `AddBlock` returns at once. -/
theorem AddBlockRun_rejected (c : Consensus K) (n : Node K) (block : Block K) (epoch : Int)
    (he : epochOf n.Config block = some epoch)
    (hrej : (block.Index = 0 ∧
        c.ValidateGenesisBlock block n.RegistryKeys (c.GetSlotLeader n epoch) = false) ∨
      (block.Index ≠ 0 ∧
        c.ValidateBlock block (GetLatestBlock n.Blockchain) (c.GetSlotLeader n epoch) =
          false)) :
    AddBlockRun c n block = ([], some n) := by
  unfold AddBlockRun
  rw [he]
  rcases hrej with ⟨h0, hv⟩ | ⟨h0, hv⟩
  · simp [h0, hv]
  · simp [h0, hv]

/-- C13, last-write-wins within a block: for a block that passes validation, on a node
whose index was obtained from the empty tree by `Add`, `Update` and `Remove` calls,
`AddBlock` completes; its loop applies the transactions in block order (`REGISTER` by
`Add`, `UPDATE` by `Update`, `REVOKE` by `Remove`); and for the last transaction `tx` of
the block for its domain, `Search` of the domain returns nil when `tx` is a `REVOKE`, and
a node whose value is `tx` itself when `tx` is a `REGISTER` or an `UPDATE`. -/
theorem last_write_wins (c : Consensus K) (n : Node K) (block : Block K) (epoch : Int)
    (he : epochOf n.Config block = some epoch)
    (hg : block.Index = 0 →
      c.ValidateGenesisBlock block n.RegistryKeys (c.GetSlotLeader n epoch) = true)
    (hb : block.Index ≠ 0 →
      c.ValidateBlock block (GetLatestBlock n.Blockchain) (c.GetSlotLeader n epoch) = true)
    (hidx : Reachable n.IndexManager)
    (pre post : List (Transaction K)) (tx : Transaction K)
    (hsplit : block.Transactions = pre ++ tx :: post)
    (hlast : ∀ t ∈ post, t.DomainName ≠ tx.DomainName) :
    ∃ n1, AddBlock c n block = some n1 ∧
      applyTxs n.IndexManager block.Transactions = some n1.IndexManager ∧
      (tx.Kind = TxType.REVOKE → (n1.IndexManager.Search tx.DomainName).1 = nil) ∧
      (tx.Kind = TxType.REGISTER ∨ tx.Kind = TxType.UPDATE →
        value? (n1.IndexManager.Search tx.DomainName).1 = some (some tx)) := by
  obtain ⟨idx, e, -, hrev, hreg⟩ := applyTxs_last hidx.inv pre post tx hlast
  rw [← hsplit] at e
  exact ⟨{ n with
      IndexManager := idx
      TransactionPool := RemoveTxsFromPool block.Transactions n.TransactionPool
      Blockchain := n.Blockchain ++ [block] },
    by rw [AddBlock, AddBlockRun_accepted c n block epoch he hg hb idx e], e, hrev, hreg⟩

/-- Witness of C13: the sample block on a node at startup; the last transaction for the
domain 6 is the `REGISTER` with identifier 2, which an `UPDATE` for the domain 5
follows. -/
theorem last_write_wins_witness :
    (epochOf (startNode : Node Nat).Config sampleBlock = some 0 ∧
      (sampleBlock.Index = 0 →
        (acceptAll : Consensus Nat).ValidateGenesisBlock sampleBlock
          (startNode : Node Nat).RegistryKeys
          ((acceptAll : Consensus Nat).GetSlotLeader startNode 0) = true) ∧
      (sampleBlock.Index ≠ 0 →
        (acceptAll : Consensus Nat).ValidateBlock sampleBlock
          (GetLatestBlock (startNode : Node Nat).Blockchain)
          ((acceptAll : Consensus Nat).GetSlotLeader startNode 0) = true) ∧
      Reachable (startNode : Node Nat).IndexManager ∧
      sampleBlock.Transactions =
        [⟨1, TxType.REGISTER, 5, []⟩] ++
          ⟨2, TxType.REGISTER, 6, []⟩ :: [⟨3, TxType.UPDATE, 5, [9]⟩] ∧
      ∀ t ∈ [(⟨3, TxType.UPDATE, 5, [9]⟩ : Transaction Nat)], t.DomainName ≠ 6) ∧
    ∃ n1, AddBlock acceptAll (startNode : Node Nat) sampleBlock = some n1 ∧
      applyTxs (startNode : Node Nat).IndexManager sampleBlock.Transactions =
        some n1.IndexManager ∧
      ((⟨2, TxType.REGISTER, 6, []⟩ : Transaction Nat).Kind = TxType.REVOKE →
        (n1.IndexManager.Search 6).1 = nil) ∧
      ((⟨2, TxType.REGISTER, 6, []⟩ : Transaction Nat).Kind = TxType.REGISTER ∨
          (⟨2, TxType.REGISTER, 6, []⟩ : Transaction Nat).Kind = TxType.UPDATE →
        value? (n1.IndexManager.Search 6).1 = some (some ⟨2, TxType.REGISTER, 6, []⟩)) :=
  ⟨⟨by decide, fun _ => rfl, fun _ => rfl, ⟨[], rfl⟩, rfl, by decide⟩,
    last_write_wins acceptAll startNode sampleBlock 0 (by decide) (fun _ => rfl)
      (fun _ => rfl) ⟨[], rfl⟩ [⟨1, TxType.REGISTER, 5, []⟩] [⟨3, TxType.UPDATE, 5, [9]⟩]
      ⟨2, TxType.REGISTER, 6, []⟩ rfl (by decide)⟩

/-- C14, rejection leaves the state untouched: for a block for which the applicable
validator (`ValidateGenesisBlock` for index 0, `ValidateBlock` against the latest block
otherwise, with the slot leader of the epoch of the block) returns false, `AddBlock`
returns, takes no mutex, and the index, the pool and the chain, hence its tip, are what
they were. -/
theorem rejection_leaves_state (c : Consensus K) (n : Node K) (block : Block K)
    (epoch : Int) (he : epochOf n.Config block = some epoch)
    (hrej : (block.Index = 0 ∧
        c.ValidateGenesisBlock block n.RegistryKeys (c.GetSlotLeader n epoch) = false) ∨
      (block.Index ≠ 0 ∧
        c.ValidateBlock block (GetLatestBlock n.Blockchain) (c.GetSlotLeader n epoch) =
          false)) :
    (AddBlockRun c n block).1 = [] ∧
      ∃ n1, AddBlock c n block = some n1 ∧ n1.IndexManager = n.IndexManager ∧
        n1.TransactionPool = n.TransactionPool ∧ n1.Blockchain = n.Blockchain ∧
        GetLatestBlock n1.Blockchain = GetLatestBlock n.Blockchain := by
  have h := AddBlockRun_rejected c n block epoch he hrej
  exact ⟨by rw [h], n, by rw [AddBlock, h], rfl, rfl, rfl, rfl⟩

/-- Witness of C14: the sample block on a node at startup, with a consensus that rejects
every block. -/
theorem rejection_leaves_state_witness :
    (epochOf (startNode : Node Nat).Config sampleBlock = some 0 ∧
      ((sampleBlock.Index = 0 ∧
          (rejectAll : Consensus Nat).ValidateGenesisBlock sampleBlock
            (startNode : Node Nat).RegistryKeys
            ((rejectAll : Consensus Nat).GetSlotLeader startNode 0) = false) ∨
        (sampleBlock.Index ≠ 0 ∧
          (rejectAll : Consensus Nat).ValidateBlock sampleBlock
            (GetLatestBlock (startNode : Node Nat).Blockchain)
            ((rejectAll : Consensus Nat).GetSlotLeader startNode 0) = false))) ∧
    ((AddBlockRun rejectAll (startNode : Node Nat) sampleBlock).1 = [] ∧
      ∃ n1, AddBlock rejectAll (startNode : Node Nat) sampleBlock = some n1 ∧
        n1.IndexManager = (startNode : Node Nat).IndexManager ∧
        n1.TransactionPool = (startNode : Node Nat).TransactionPool ∧
        n1.Blockchain = (startNode : Node Nat).Blockchain ∧
        GetLatestBlock n1.Blockchain = GetLatestBlock (startNode : Node Nat).Blockchain) :=
  ⟨⟨by decide, Or.inl ⟨rfl, rfl⟩⟩,
    rejection_leaves_state rejectAll startNode sampleBlock 0 (by decide)
      (Or.inl ⟨rfl, rfl⟩)⟩

/-- C15 as stated fails: transactions are applied one after the other, so a later
transaction for the same domain overrides an earlier one.  After the block `REGISTER 5,
REVOKE 5` the domain of the `REGISTER` is not found; after the block `REVOKE 5,
REGISTER 5` the domain of the `REVOKE` is found. -/
theorem block_atomicity_counterexample :
    (∃ n1, AddBlock acceptAll (startNode : Node Nat)
          ⟨0, 0, [⟨1, TxType.REGISTER, 5, []⟩, ⟨2, TxType.REVOKE, 5, []⟩]⟩ = some n1 ∧
        (n1.IndexManager.Search 5).1 = nil) ∧
      ∃ n1, AddBlock acceptAll (startNode : Node Nat)
          ⟨0, 0, [⟨1, TxType.REVOKE, 5, []⟩, ⟨2, TxType.REGISTER, 5, []⟩]⟩ = some n1 ∧
        value? (n1.IndexManager.Search 5).1 = some (some ⟨2, TxType.REGISTER, 5, []⟩) :=
  ⟨⟨_, rfl, by decide⟩, ⟨_, rfl, by decide⟩⟩

/-- C15, as amended: for a block that passes validation, on a node whose index was
obtained from the empty tree by `Add`, `Update` and `Remove` calls, `AddBlock` completes;
after it, for every transaction that is the last of the block for its domain, the domain
is found with that transaction as record when it is a `REGISTER` or an `UPDATE` and is
absent when it is a `REVOKE`; and no entry of the pool has the identifier of a
transaction of the block. -/
theorem block_application (c : Consensus K) (n : Node K) (block : Block K) (epoch : Int)
    (he : epochOf n.Config block = some epoch)
    (hg : block.Index = 0 →
      c.ValidateGenesisBlock block n.RegistryKeys (c.GetSlotLeader n epoch) = true)
    (hb : block.Index ≠ 0 →
      c.ValidateBlock block (GetLatestBlock n.Blockchain) (c.GetSlotLeader n epoch) = true)
    (hidx : Reachable n.IndexManager) :
    ∃ n1, AddBlock c n block = some n1 ∧
      (∀ pre post tx, block.Transactions = pre ++ tx :: post →
        (∀ t ∈ post, t.DomainName ≠ tx.DomainName) →
        (tx.Kind = TxType.REGISTER ∨ tx.Kind = TxType.UPDATE →
          value? (n1.IndexManager.Search tx.DomainName).1 = some (some tx)) ∧
        (tx.Kind = TxType.REVOKE → (n1.IndexManager.Search tx.DomainName).1 = nil)) ∧
      ∀ tx ∈ block.Transactions, ∀ e ∈ n1.TransactionPool, e.1 ≠ tx.TID := by
  obtain ⟨idx, e, -⟩ := applyTxs_total hidx.inv block.Transactions
  refine ⟨{ n with
      IndexManager := idx
      TransactionPool := RemoveTxsFromPool block.Transactions n.TransactionPool
      Blockchain := n.Blockchain ++ [block] },
    by rw [AddBlock, AddBlockRun_accepted c n block epoch he hg hb idx e], ?_, ?_⟩
  · intro pre post tx hsplit hlast
    obtain ⟨idx1, e1, -, hrev, hreg⟩ := applyTxs_last hidx.inv pre post tx hlast
    rw [← hsplit, e] at e1
    cases e1
    exact ⟨hreg, hrev⟩
  · intro tx htx en hen h
    exact (mem_RemoveTxsFromPool hen).2 tx htx h.symm

/-- Witness of C15 as amended: the sample block on the sample node, whose pool holds the
first transaction of the block. -/
theorem block_application_witness :
    (epochOf sampleNode.Config sampleBlock = some 0 ∧
      (sampleBlock.Index = 0 →
        (acceptAll : Consensus Nat).ValidateGenesisBlock sampleBlock sampleNode.RegistryKeys
          ((acceptAll : Consensus Nat).GetSlotLeader sampleNode 0) = true) ∧
      (sampleBlock.Index ≠ 0 →
        (acceptAll : Consensus Nat).ValidateBlock sampleBlock
          (GetLatestBlock sampleNode.Blockchain)
          ((acceptAll : Consensus Nat).GetSlotLeader sampleNode 0) = true) ∧
      Reachable sampleNode.IndexManager) ∧
    ∃ n1, AddBlock acceptAll sampleNode sampleBlock = some n1 ∧
      (∀ pre post tx, sampleBlock.Transactions = pre ++ tx :: post →
        (∀ t ∈ post, t.DomainName ≠ tx.DomainName) →
        (tx.Kind = TxType.REGISTER ∨ tx.Kind = TxType.UPDATE →
          value? (n1.IndexManager.Search tx.DomainName).1 = some (some tx)) ∧
        (tx.Kind = TxType.REVOKE → (n1.IndexManager.Search tx.DomainName).1 = nil)) ∧
      ∀ tx ∈ sampleBlock.Transactions, ∀ e ∈ n1.TransactionPool, e.1 ≠ tx.TID :=
  ⟨⟨by decide, fun _ => rfl, fun _ => rfl, ⟨[], rfl⟩⟩,
    block_application acceptAll sampleNode sampleBlock 0 (by decide) (fun _ => rfl)
      (fun _ => rfl) ⟨[], rfl⟩⟩

/-- C16, evaluation at the failing input: the genesis block with the single transaction
`REGISTER "alice.bdns"`, accepted on a node at startup.  `AddBlock` stores the record
under `tx.DomainName`, the name itself: the only key of the index is `"alice.bdns"`,
`Search` of the name finds the transaction, and `Search` of any other string, such as a
hash of the name, returns nil.  The pool is empty and the tip of the chain has index 0. -/
theorem index_keyed_by_domain_name :
    ∃ n1, AddBlock acceptAll (startNode : Node String)
        ⟨0, 0, [⟨1, TxType.REGISTER, "alice.bdns", []⟩]⟩ = some n1 ∧
      keys n1.IndexManager.root = ["alice.bdns"] ∧
      value? (n1.IndexManager.Search "alice.bdns").1 =
        some (some ⟨1, TxType.REGISTER, "alice.bdns", []⟩) ∧
      (∀ k : String, k ≠ "alice.bdns" → (n1.IndexManager.Search k).1 = nil) ∧
      n1.TransactionPool = [] ∧
      (GetLatestBlock n1.Blockchain).map (fun b => b.Index) = some 0 := by
  refine ⟨_, rfl, rfl, ?_, ?_, rfl, rfl⟩
  · simp [AVLTree.Search, search, value?]
  · intro k hk
    show search (node "alice.bdns" _ 1 nil nil) k = nil
    simp only [search]
    split
    · rfl
    · split
      · rfl
      · rename_i h1 h2
        exact absurd (le_antisymm (not_lt.mp h2) (not_lt.mp h1)) hk

end Node

/-! ## The node: messages and mutexes -/

/-- Messages sent while the held mutexes are acceptable do not change the outcome of the
check of what follows. -/
theorem checkSends_map {K α : Type} (ok : List Mutex → Bool) (held : List Mutex)
    (hok : ok held = true) (f : α → Msg K) (dest : String) (l : List α)
    (rest : List (Event K)) :
    checkSends ok held ((l.map fun a => Event.DirectMessage (f a) dest) ++ rest) =
      checkSends ok held rest := by
  induction l with
  | nil => rfl
  | cons a l ih =>
    simp only [List.map_cons, List.cons_append, checkSends, hok, Bool.true_and]
    exact ih

/-- A mutex locked, messages sent, the mutex unlocked: every message is sent under the
mutex. -/
theorem sendsUnder_locked {K α : Type} (m : Mutex) (f : α → Msg K) (dest : String)
    (l : List α) :
    sendsUnder m (Event.lock m ::
      ((l.map fun a => Event.DirectMessage (f a) dest) ++ [Event.unlock m])) = true := by
  unfold sendsUnder
  rw [checkSends, checkSends_map _ _ (by simp)]
  rfl

namespace Node

variable {K : Type}

/-- C17 as stated fails: `HandleINV` on a node whose chain holds one block locks
`BcMutex`, sends the `MsgGetBlock` message and only then runs the deferred unlock; the
message is sent while the mutex is held. -/
theorem sends_after_release_counterexample :
    (HandleINV ({ (startNode : Node Nat) with Blockchain := [⟨0, 0, []⟩] }) "peer").1 =
        [Event.lock Mutex.BcMutex, Event.DirectMessage (Msg.MsgGetBlock 0) "peer",
          Event.unlock Mutex.BcMutex] ∧
      sendsAfterRelease
        (HandleINV ({ (startNode : Node Nat) with Blockchain := [⟨0, 0, []⟩] }) "peer").1 =
          false :=
  ⟨rfl, rfl⟩

/-- The handlers send their messages under their mutex. -/
theorem handlers_send_under_lock (n : Node K) (sender : String) :
    sendsUnder Mutex.BcMutex (HandleINV n sender).1 = true ∧
      sendsUnder Mutex.TxMutex (HandleGetData n sender).1 = true ∧
      sendsUnder Mutex.BcMutex (HandleGetBlock n sender).1 = true ∧
      sendsUnder Mutex.BcMutex (HandleMerkleRequest n sender).1 = true := by
  refine ⟨?_, ?_, ?_, ?_⟩
  · unfold HandleINV
    cases GetLatestBlock n.Blockchain <;> rfl
  · exact sendsUnder_locked Mutex.TxMutex (fun e : Int × Transaction K => Msg.MsgTransaction e.2)
      sender n.TransactionPool
  · unfold HandleGetBlock
    cases GetLatestBlock n.Blockchain with
    | none => rfl
    | some latest => exact sendsUnder_locked Mutex.BcMutex (fun b => Msg.MsgBlock b) sender _
  · unfold HandleMerkleRequest
    cases GetLatestBlock n.Blockchain <;> rfl

variable [LinearOrder K]

/-- C17, as amended: `AddBlock` and `AddTransaction` send no message, and the two never
hold a mutex while sending; in `HandleINV`, `HandleGetBlock` and `HandleMerkleRequest`
every `DirectMessage` is sent while `BcMutex`, and no other mutex, is held, and in
`HandleGetData` while `TxMutex`, and no other mutex, is held: the sends come before the
deferred unlock, not after it. -/
theorem sends_under_lock (c : Consensus K) (n : Node K) (block : Block K)
    (tx : Transaction K) (sender : String) :
    (∀ e ∈ (AddBlockRun c n block).1, e.isSend = false) ∧
      (∀ e ∈ (AddTransactionRun n tx).1, e.isSend = false) ∧
      sendsAfterRelease (AddBlockRun c n block).1 = true ∧
      sendsAfterRelease (AddTransactionRun n tx).1 = true ∧
      sendsUnder Mutex.BcMutex (HandleINV n sender).1 = true ∧
      sendsUnder Mutex.TxMutex (HandleGetData n sender).1 = true ∧
      sendsUnder Mutex.BcMutex (HandleGetBlock n sender).1 = true ∧
      sendsUnder Mutex.BcMutex (HandleMerkleRequest n sender).1 = true := by
  have hadd : (AddBlockRun c n block).1 = [] ∨
      (AddBlockRun c n block).1 = [Event.lock Mutex.TxMutex] ∨
      (AddBlockRun c n block).1 = [Event.lock Mutex.TxMutex, Event.unlock Mutex.TxMutex,
        Event.lock Mutex.BcMutex, Event.unlock Mutex.BcMutex] := by
    unfold AddBlockRun
    cases epochOf n.Config block with
    | none => exact Or.inl rfl
    | some epoch =>
      simp only
      split
      · exact Or.inl rfl
      · cases applyTxs n.IndexManager block.Transactions with
        | none => exact Or.inr (Or.inl rfl)
        | some idx => exact Or.inr (Or.inr rfl)
  refine ⟨?_, ?_, ?_, ?_, handlers_send_under_lock n sender⟩
  · rcases hadd with h | h | h <;> rw [h] <;> simp [Event.isSend]
  · simp [AddTransactionRun, Event.isSend]
  · rcases hadd with h | h | h <;> rw [h] <;> rfl
  · rfl

end Node

end Bdns
